import Mathlib

/-!
Verification of the CMake subproject bridge (`mesonbuild/cmake/client.py` and
`mesonbuild/cmake/interpreter.py`): the framed message codec, the request/reply
query loop, the target converter (flag accumulation, standard/PIC extraction,
object-library inference) and the declarative statement synthesizer.

Python strings are modelled as Lean `String` (a wrapper around `List Char`);
string primitives used by the code (`str.strip`, `str.lower`, `str.upper`,
`str.replace`, `str.startswith`, `str.endswith`, `os.path.basename`) are
defined here on the character list to mirror the Python semantics on the
(ASCII) inputs this code handles.

The file is organised as: all definitions first, then all theorems.
-/

namespace MesonCMake

/-! ## String helpers -/

/-- Characters `str.strip()` removes (Python: space, tab, LF, CR, VT, FF). -/
def isStripChar (c : Char) : Bool :=
  c = ' ' || c = '\t' || c = '\n' || c = '\x0d' || c = '\x0b' || c = '\x0c'

/-- Python `str.strip()`: drop leading and trailing whitespace. -/
def stripChars (l : List Char) : List Char :=
  ((l.dropWhile isStripChar).reverse.dropWhile isStripChar).reverse

/-- ASCII lower-casing of one character (Python `str.lower` on the ASCII
language identifiers this code receives). -/
def charLower (c : Char) : Char :=
  if 'A' ≤ c ∧ c ≤ 'Z' then Char.ofNat (c.toNat + 32) else c

/-- ASCII upper-casing of one character (Python `str.upper`). -/
def charUpper (c : Char) : Char :=
  if 'a' ≤ c ∧ c ≤ 'z' then Char.ofNat (c.toNat - 32) else c

/-- Python `str.lower()` (ASCII fragment). -/
def strLower (s : String) : String := ⟨s.data.map charLower⟩

/-- Python `str.upper()` (ASCII fragment). -/
def strUpper (s : String) : String := ⟨s.data.map charUpper⟩

/-- Python `str.startswith`. -/
def strStarts (s p : String) : Bool := p.data.isPrefixOf s.data

/-- Python `str.endswith`. -/
def strEndsWith (s suffix : String) : Bool := suffix.data.isSuffixOf s.data

/-- Python `s[n:]` for a non-negative `n`. -/
def strDropN (s : String) (n : Nat) : String := ⟨s.data.drop n⟩

/-- `os.path.basename` (POSIX): everything after the last `/`. -/
def strBasename (s : String) : String :=
  ⟨s.data.foldl (fun acc c => if c = '/' then [] else acc ++ [c]) []⟩

/-- `os.path.isabs` (POSIX): the path starts with `/`. -/
def strIsAbs (s : String) : Bool := strStarts s "/"

/-! ## Association lists (Python `dict` with insertion order) -/

/-- Association-list lookup (first binding wins), mirroring a Python dict
read. -/
def lookupA {α : Type} (l : List (String × α)) (k : String) : Option α :=
  match l with
  | [] => none
  | (k', v) :: rest => if k' = k then some v else lookupA rest k

/-- Association-list update of the first binding for `k` (Python dict write
for an existing key); a missing key leaves the list unchanged. -/
def updateA {α : Type} (l : List (String × α)) (k : String) (v : α) :
    List (String × α) :=
  match l with
  | [] => []
  | (k', v') :: rest =>
    if k' = k then (k', v) :: rest else (k', v') :: updateA rest k v

/-- Python dict insertion for a key that is absent: append at the end
(insertion order), leave present keys alone. -/
def ensureKey {α : Type} (l : List (String × α)) (k : String) (v : α) :
    List (String × α) :=
  match lookupA l k with
  | some _ => l
  | none => l ++ [(k, v)]

/-! ## Protocol session: the `query` read loop (`CMakeClient.query`) -/

/-- The six wire message kinds accepted by `CMAKE_MESSAGE_TYPES`. -/
inductive MsgKind where
  | error | hello | message | progress | reply | signal
deriving DecidableEq, Repr

/-- A decoded protocol message as seen by the `query` loop: its `type` and its
correlation `cookie` (empty for `hello`). -/
structure Msg where
  kind : MsgKind
  cookie : String
deriving DecidableEq, Repr

/-- The return condition of `CMakeClient.query`:
`reply.cookie == request.cookie and reply.type in ['reply', 'error']`. -/
def isQueryResult (reqCookie : String) (m : Msg) : Bool :=
  m.cookie = reqCookie && (m.kind = MsgKind.reply || m.kind = MsgKind.error)

/-- `CMakeClient.query` after the request has been written: read messages one
by one; a message failing `isQueryResult` is logged (`reply.log()`) and the
loop continues; the first passing message is returned.  Returns the list of
logged-and-skipped messages together with the result; `none` models a stream
that ends without a matching message (the blocking read fails). -/
def query (reqCookie : String) : List Msg → Option (List Msg × Msg)
  | [] => none
  | m :: ms =>
    if isQueryResult reqCookie m then some ([], m)
    else (query reqCookie ms).map (fun p => (m :: p.1, p.2))

/-! ## Foreign model input (`CMakeFileGroup` / `CMakeTarget`)

Modelled from the spec: the code-model classes (`CMakeFileGroup`,
`CMakeTarget`) are imported by `interpreter.py` from `client.py` but their
definitions are not part of the analysed sources; the field sets follow
spec §3 (ForeignTarget / CompileGroup) and the attribute accesses in
`ConverterTarget.__init__`. -/

structure CompileGroup where
  language : String
  flags : List String
  defines : List String
  includes : List String
  sources : List String
  isGenerated : Bool
deriving DecidableEq, Repr, Inhabited

structure CMakeTarget where
  name : String
  fullName : String
  type : String
  install : Bool
  installPaths : List String
  linkLibraries : List String
  linkFlags : List String
  linkLangFlags : List String
  files : List CompileGroup
  srcDir : String
  buildDir : String
  artifacts : List String
deriving DecidableEq, Repr, Inhabited

/-! ## Target converter (`ConverterTarget`) -/

/-- `CMAKE_LANGUAGE_MAP` from `interpreter.py`. -/
def cmakeLanguageMap : List (String × String) :=
  [("c", "C"), ("cpp", "CXX"), ("cuda", "CUDA"), ("cs", "CSharp"),
   ("java", "Java"), ("fortran", "Fortran"), ("swift", "Swift")]

/-- `ConverterTarget.lang_cmake_to_meson = {val.lower(): key for ...}`. -/
def langCmakeToMeson : List (String × String) :=
  cmakeLanguageMap.map (fun p => (strLower p.2, p.1))

/-- `CMAKE_TGT_TYPE_MAP` from `interpreter.py`. -/
def cmakeTgtTypeMap : List (String × String) :=
  [("STATIC_LIBRARY", "static_library"), ("MODULE_LIBRARY", "shared_module"),
   ("SHARED_LIBRARY", "shared_library"), ("EXECUTABLE", "executable"),
   ("OBJECT_LIBRARY", "static_library")]

/-- A converted target.  `linkWith` and `objectLibs` hold indices into the
conversion pass's target list (Python stores shared references to sibling
`ConverterTarget` objects). -/
structure ConverterTarget where
  name : String
  fullName : String
  type : String
  install : Bool
  installDir : String
  linkLibraries : List String
  linkFlags : List String
  languages : List String
  sources : List String
  generated : List String
  includes : List String
  linkWith : List Nat
  objectLibs : List Nat
  compileOpts : List (String × List String)
  pie : Bool
  overrideOptions : List String
deriving DecidableEq, Repr, Inhabited

/-- The compile-opts accumulation of one file group
(`self.compile_opts[lang] += [x for x in args if x not in
self.compile_opts[lang]]`, with the preceding `if lang not in
self.compile_opts` insertion): the membership filter is evaluated against the
list accumulated *before* this group, then the kept tokens are appended. -/
def accumOpts (opts : List (String × List String)) (lang : String)
    (args : List String) : List (String × List String) :=
  updateA (ensureKey opts lang []) lang
    ((lookupA (ensureKey opts lang []) lang).getD [] ++
      args.filter (fun x => x ∉ (lookupA (ensureKey opts lang []) lang).getD []))

/-- One iteration of the `for i in target.files` loop in
`ConverterTarget.__init__`: language mapping, order-preserving flag/define
accumulation with a membership check against the already-accumulated list,
include accumulation, and the generated/ordinary source partition. -/
def ConverterTarget.addGroup (t : ConverterTarget) (g : CompileGroup) :
    ConverterTarget :=
  let lang := (lookupA langCmakeToMeson (strLower g.language)).getD "c"
  let languages :=
    if lang ∈ t.languages then t.languages else t.languages ++ [lang]
  let args := g.flags ++ g.defines.map (fun d => "-D" ++ d)
  let opts1 := accumOpts t.compileOpts lang args
  let includes := t.includes ++ g.includes.filter (fun x => x ∉ t.includes)
  if g.isGenerated then
    { t with languages := languages, compileOpts := opts1,
             includes := includes, generated := t.generated ++ g.sources }
  else
    { t with languages := languages, compileOpts := opts1,
             includes := includes, sources := t.sources ++ g.sources }

/-- `ConverterTarget.__init__`. -/
def ConverterTarget.init (target : CMakeTarget) : ConverterTarget :=
  let base : ConverterTarget := {
    name := target.name, fullName := target.fullName, type := target.type,
    install := target.install,
    installDir := match target.installPaths with | [] => "" | p :: _ => p,
    linkLibraries := target.linkLibraries,
    linkFlags := target.linkFlags ++ target.linkLangFlags,
    languages := [], sources := [], generated := [], includes := [],
    linkWith := [], objectLibs := [], compileOpts := [], pie := false,
    overrideOptions := [] }
  target.files.foldl ConverterTarget.addGroup base

/-! ## Standard / PIC flag extraction (`ConverterTarget.postprocess`,
first loop) -/

/-- The PIC/PIE flags recognised by `postprocess`. -/
def picFlags : List String := ["-fPIC", "-fpic", "-fPIE", "-fpie"]

/-- `ConverterTarget.std_regex = re.compile(r'([-]{1,2}std=|/std:v?)(.*)')`
applied with `re.match` (anchored at the start; the dash count and the `v` are
matched greedily): returns group 2 on a match. -/
def stdMatch (j : String) : Option String :=
  if strStarts j "--std=" then some (strDropN j 6)
  else if strStarts j "-std=" then some (strDropN j 5)
  else if strStarts j "/std:v" then some (strDropN j 6)
  else if strStarts j "/std:" then some (strDropN j 5)
  else none

/-- The mutable state the first `postprocess` loop works on: the per-language
compile options dict, `override_options`, and `pie`. -/
structure ExtractState where
  opts : List (String × List String)
  overrideOptions : List String
  pie : Bool
deriving DecidableEq, Repr

/-- The inner `for j in self.compile_opts[i]` loop: a `std` match is hoisted
into `override_options`, a PIC/PIE flag sets `pie`, everything else is kept
in order. -/
def extractLangAux (lang : String) :
    List String → List String → Bool → List String × List String × Bool
  | [], ov, pie => ([], ov, pie)
  | j :: rest, ov, pie =>
    match stdMatch j with
    | some std => extractLangAux lang rest (ov ++ [lang ++ "_std=" ++ std]) pie
    | none =>
      if j ∈ picFlags then extractLangAux lang rest ov true
      else
        let r := extractLangAux lang rest ov pie
        (j :: r.1, r.2.1, r.2.2)

/-- One iteration of `for i in ['c', 'cpp']`: languages absent from the dict
are skipped (`if not i in self.compile_opts: continue`). -/
def extractLangState (s : ExtractState) (lang : String) : ExtractState :=
  match lookupA s.opts lang with
  | none => s
  | some l =>
    let r := extractLangAux lang l s.overrideOptions s.pie
    ⟨updateA s.opts lang r.1, r.2.1, r.2.2⟩

/-- The whole standard/PIC extraction pass (`postprocess` lines 117–132):
the loop body runs for `'c'` and then `'cpp'`; no other language is
visited. -/
def extractStdPic (s : ExtractState) : ExtractState :=
  extractLangState (extractLangState s "c") "cpp"

/-! ## Object-library inference (`ConverterTarget.process_object_libs` and
the second pass of `CMakeInterpreter.analyse`) -/

/-- `ConverterTarget.process_object_libs`: strip every generated entry ending
in `.o` (keeping their basenames in `temp`), then add an `object_libs` edge to
every object-library sibling one of whose `sources + generated` entries, with
`.o` appended, has a basename occurring in `temp`.  `objs` carries the
sibling's index together with its current state. -/
def processObjectLibs (t : ConverterTarget)
    (objs : List (Nat × ConverterTarget)) : ConverterTarget :=
  let temp := (t.generated.filter (fun x => strEndsWith x ".o")).map strBasename
  let gen' := t.generated.filter (fun x => !strEndsWith x ".o")
  let newLibs := (objs.filter (fun io =>
    ((io.2.sources ++ io.2.generated).map
      (fun x => strBasename (x ++ ".o"))).any (fun j => temp.contains j))).map
    (fun io => io.1)
  { t with generated := gen', objectLibs := t.objectLibs ++ newLibs }

/-- The indices of the `OBJECT_LIBRARY`-typed targets, in target order
(`object_libs` is accumulated in that order during the first `analyse`
pass; the pass never changes a target's `type`). -/
def objectLibIndices (ts : List ConverterTarget) : List Nat :=
  (List.range ts.length).filter
    (fun i => (ts.getD i default).type = "OBJECT_LIBRARY")

/-- One iteration of the second `analyse` pass
(`for i in self.targets: i.process_object_libs(object_libs)`): target `i` is
updated in place, reading the *current* state of every object-library sibling
through shared references.  Because `process_object_libs` reassigns
`self.generated` before scanning `obj_target_list`, a target that is itself an
object library sees its own generated list already stripped (`tsMid`); all
other siblings are seen in their current state. -/
def objectLibsPassStep (ol : List Nat) (ts : List ConverterTarget) (i : Nat) :
    List ConverterTarget :=
  match ts[i]? with
  | none => ts
  | some t =>
    ts.set i (processObjectLibs t
      (ol.filterMap (fun k =>
        ((ts.set i { t with generated :=
          t.generated.filter (fun x => !strEndsWith x ".o") })[k]?).map
          (fun tk => (k, tk)))))

/-- The first `n` iterations of the second `analyse` pass. -/
def objectLibsPassAux (ol : List Nat) (ts : List ConverterTarget) (n : Nat) :
    List ConverterTarget :=
  (List.range n).foldl (objectLibsPassStep ol) ts

/-- The second `analyse` pass over all targets, in order. -/
def processObjectLibsPass (ts : List ConverterTarget) : List ConverterTarget :=
  objectLibsPassAux (objectLibIndices ts) ts ts.length

/-! ## Framed message codec (`CMakeClient.readMessageRaw` / `writeMessage`)

The wire payload is JSON produced by Python's `json.dumps(..., indent=2)` and
consumed by `json.loads`.  JSON values expressible by this protocol are
modelled by `Json` below: numbers are integers (the protocol transports only
integer numbers — protocol versions — besides strings, booleans, lists and
objects), objects are insertion-ordered key/value lists (Python dicts). -/

inductive Json where
  | null
  | bool (b : Bool)
  | num (n : Int)
  | str (s : String)
  | arr (xs : List Json)
  | obj (kvs : List (String × Json))
deriving Inhabited

/-- `CMAKE_SERVER_BEGIN_STR`. -/
def beginSentinelChars : List Char := ("[== \"CMake Server\" ==[").data

/-- `CMAKE_SERVER_END_STR`. -/
def endSentinelChars : List Char := ("]== \"CMake Server\" ==]").data

/-! ### `json.dumps(..., indent=2)` (ensure_ascii) -/

/-- Lower-case hex digit, as emitted by Python's `\uXXXX` escapes. -/
def hexDigitChar (n : Nat) : Char :=
  if n < 10 then Char.ofNat (48 + n) else Char.ofNat (87 + n)

/-- Four lower-case hex digits, most significant first. -/
def toHex4 (n : Nat) : List Char :=
  [hexDigitChar (n / 4096 % 16), hexDigitChar (n / 256 % 16),
   hexDigitChar (n / 16 % 16), hexDigitChar (n % 16)]

/-- Python `json` string escaping with `ensure_ascii=True`: quote and
backslash are escaped, the control characters with short escapes use them,
any other character outside printable ASCII is `\uXXXX`-escaped (as a
surrogate pair beyond the BMP). -/
def escapeChar (c : Char) : List Char :=
  if c = '"' then ['\\', '"']
  else if c = '\\' then ['\\', '\\']
  else if c = '\n' then ['\\', 'n']
  else if c = '\t' then ['\\', 't']
  else if c = '\x0d' then ['\\', 'r']
  else if c = '\x08' then ['\\', 'b']
  else if c = '\x0c' then ['\\', 'f']
  else if 0x20 ≤ c.toNat ∧ c.toNat ≤ 0x7e then [c]
  else if c.toNat < 0x10000 then '\\' :: 'u' :: toHex4 c.toNat
  else
    ('\\' :: 'u' :: toHex4 (0xd800 + (c.toNat - 0x10000) / 0x400)) ++
    ('\\' :: 'u' :: toHex4 (0xdc00 + (c.toNat - 0x10000) % 0x400))

def escChars : List Char → List Char
  | [] => []
  | c :: cs => escapeChar c ++ escChars cs

/-- Decimal digits of a natural number (fuel-structured so that it reduces
definitionally; `natCharsAux f n` is the representation whenever `n ≤ f`). -/
def natCharsAux : Nat → Nat → List Char
  | 0, n => [Char.ofNat (48 + n % 10)]
  | f + 1, n =>
    if n < 10 then [Char.ofNat (48 + n)]
    else natCharsAux f (n / 10) ++ [Char.ofNat (48 + n % 10)]

def natChars (n : Nat) : List Char := natCharsAux n n

/-- Python `repr` of an integer. -/
def intChars (i : Int) : List Char :=
  if i < 0 then '-' :: natChars (-i).toNat else natChars i.toNat

/-- The key part of an object member line: `"key": `. -/
def keyChars (k : String) : List Char :=
  '"' :: escChars k.data ++ ('"' :: ':' :: ' ' :: [])

/-- Shift a block of (relative depth, content) lines one level deeper. -/
def shiftB (b : List (Nat × List Char)) : List (Nat × List Char) :=
  b.map (fun p => (p.1 + 1, p.2))

/-- Prepend `pre` to the content of the first line of a block. -/
def prefixFirst (pre : List Char) :
    List (Nat × List Char) → List (Nat × List Char)
  | [] => []
  | p :: rest => (p.1, pre ++ p.2) :: rest

/-- Append `,` to the content of the last line of a block. -/
def commaLast : List (Nat × List Char) → List (Nat × List Char)
  | [] => []
  | [p] => [(p.1, p.2 ++ [','])]
  | p :: q :: rest => p :: commaLast (q :: rest)

/-- Join the member blocks of a container: every block except the last gets a
trailing comma. -/
def joinB : List (List (Nat × List Char)) → List (Nat × List Char)
  | [] => []
  | [b] => b
  | b :: b2 :: bs => commaLast b ++ joinB (b2 :: bs)

mutual
/-- The output of `json.dumps(v, indent=2)` as a list of lines, each given as
(depth, content): the emitted line is `'  ' * depth ++ content`.  Scalars are
single lines, containers open/close with bracket lines, members are indented
one level deeper, with the key part spliced onto the first line of the member
value. -/
def linesD : Json → List (Nat × List Char)
  | Json.null => [(0, ("null").data)]
  | Json.bool true => [(0, ("true").data)]
  | Json.bool false => [(0, ("false").data)]
  | Json.num i => [(0, intChars i)]
  | Json.str s => [(0, '"' :: escChars s.data ++ ['"'])]
  | Json.arr [] => [(0, ("[]").data)]
  | Json.arr (x :: xs) =>
    (0, ['[']) :: joinB (linesArr (x :: xs)) ++ [(0, [']'])]
  | Json.obj [] => [(0, ("\x7b\x7d").data)]
  | Json.obj (kv :: kvs) =>
    (0, ['\x7b']) :: joinB (linesObj (kv :: kvs)) ++ [(0, ['\x7d'])]

def linesArr : List Json → List (List (Nat × List Char))
  | [] => []
  | x :: xs => shiftB (linesD x) :: linesArr xs

def linesObj : List (String × Json) → List (List (Nat × List Char))
  | [] => []
  | kv :: kvs =>
    prefixFirst (keyChars kv.1) (shiftB (linesD kv.2)) :: linesObj kvs
end

def indentChars (d : Nat) : List Char := List.replicate (2 * d) ' '

/-- The lines of `json.dumps(msg.to_dict(), indent=2)`. -/
def dumpsLines (v : Json) : List (List Char) :=
  (linesD v).map (fun p => indentChars p.1 ++ p.2)

/-- `'\n'.join`: the payload string rebuilt from lines (and, on the writer
side, the line decomposition of the dumped payload — escaping guarantees no
content line contains a newline). -/
def joinLines : List (List Char) → List Char
  | [] => []
  | [l] => l
  | l :: l2 :: ls => l ++ '\n' :: joinLines (l2 :: ls)

/-- The line stream produced by `writeMessage`
(`'\n{begin}\n{json}\n{end}\n'`) as read back by `readline`: an empty line,
the begin sentinel, the dumped payload lines, the end sentinel. -/
def writeMessageLines (v : Json) : List (List Char) :=
  [] :: beginSentinelChars :: dumpsLines v ++ [endSentinelChars]

/-- The compact payload obtained by stripping each dumped line and rejoining
with newlines — exactly what `readMessageRaw` hands to `json.loads`. -/
def flatChars (v : Json) : List Char := joinLines ((linesD v).map Prod.snd)

/-- The flattened element sequence of a non-empty array (elements separated
by `,\n`). -/
def flatSeq : List Json → List Char
  | [] => []
  | [x] => flatChars x
  | x :: x2 :: xs => flatChars x ++ ',' :: '\n' :: flatSeq (x2 :: xs)

/-- The flattened member sequence of a non-empty object. -/
def flatMembers : List (String × Json) → List Char
  | [] => []
  | [kv] => keyChars kv.1 ++ flatChars kv.2
  | kv :: kv2 :: kvs =>
    keyChars kv.1 ++ flatChars kv.2 ++ ',' :: '\n' :: flatMembers (kv2 :: kvs)

/-! ### `json.loads` -/

/-- JSON whitespace (`' \t\n\r'`). -/
def isJsonWs (c : Char) : Bool :=
  c = ' ' || c = '\t' || c = '\n' || c = '\x0d'

def skipWs (cs : List Char) : List Char := cs.dropWhile isJsonWs

def hexVal (c : Char) : Option Nat :=
  if '0' ≤ c ∧ c ≤ '9' then some (c.toNat - 48)
  else if 'a' ≤ c ∧ c ≤ 'f' then some (c.toNat - 87)
  else if 'A' ≤ c ∧ c ≤ 'F' then some (c.toNat - 55)
  else none

def parseHex4 : List Char → Option (Nat × List Char)
  | a :: b :: c :: d :: rest =>
    match hexVal a, hexVal b, hexVal c, hexVal d with
    | some va, some vb, some vc, some vd =>
      some (va * 4096 + vb * 256 + vc * 16 + vd, rest)
    | _, _, _, _ => none
  | _ => none

/-- The short escapes accepted after a backslash (Python `py_scanstring`). -/
def escDecode (e : Char) : Option Char :=
  if e = '"' then some '"'
  else if e = '\\' then some '\\'
  else if e = '/' then some '/'
  else if e = 'b' then some '\x08'
  else if e = 'f' then some '\x0c'
  else if e = 'n' then some '\n'
  else if e = 'r' then some '\x0d'
  else if e = 't' then some '\t'
  else none

/-- The body of a JSON string after the opening quote: literal characters up
to the closing quote, backslash escapes (`\uXXXX` with surrogate-pair
recombination), raw control characters rejected (`strict=True`).  Fuel is one
unit per decoded character. -/
def parseStringRest : Nat → List Char → Option (List Char × List Char)
  | 0, _ => none
  | f + 1, cs =>
    match cs with
    | [] => none
    | c :: cs1 =>
      if c = '"' then some ([], cs1)
      else if c = '\\' then
        match cs1 with
        | [] => none
        | e :: cs2 =>
          if e = 'u' then
            match parseHex4 cs2 with
            | none => none
            | some (h, rest) =>
              if 0xd800 ≤ h ∧ h ≤ 0xdbff then
                match rest with
                | r1 :: r2 :: rest2 =>
                  if r1 = '\\' ∧ r2 = 'u' then
                    match parseHex4 rest2 with
                    | none => none
                    | some (lo, rest3) =>
                      if 0xdc00 ≤ lo ∧ lo ≤ 0xdfff then
                        (parseStringRest f rest3).map (fun p =>
                          (Char.ofNat (0x10000 + (h - 0xd800) * 0x400 +
                            (lo - 0xdc00)) :: p.1, p.2))
                      else none
                  else none
                | _ => none
              else if 0xdc00 ≤ h ∧ h ≤ 0xdfff then none
              else (parseStringRest f rest).map (fun p =>
                (Char.ofNat h :: p.1, p.2))
          else
            match escDecode e with
            | none => none
            | some c2 => (parseStringRest f cs2).map (fun p =>
                (c2 :: p.1, p.2))
      else if c.toNat < 0x20 then none
      else (parseStringRest f cs1).map (fun p => (c :: p.1, p.2))

def parseStr (cs : List Char) : Option (List Char × List Char) :=
  parseStringRest (cs.length + 1) cs

/-- A maximal run of decimal digits. -/
def parseNatNum (cs : List Char) : Option (Nat × List Char) :=
  match cs.takeWhile Char.isDigit with
  | [] => none
  | ds => some (ds.foldl (fun a c => a * 10 + (c.toNat - 48)) 0,
                cs.drop ds.length)

/-- After an integer literal the next character must not extend it to a
float (`.`/`e`/`E` — floats are outside the protocol's value model). -/
def numDelimOk : List Char → Bool
  | [] => true
  | c :: _ => !(c = '.' || c = 'e' || c = 'E')

def parseNumber (cs : List Char) : Option (Json × List Char) :=
  match cs with
  | [] => none
  | c :: rest =>
    if c = '-' then
      match parseNatNum rest with
      | none => none
      | some (n, r) =>
        if numDelimOk r then some (Json.num (-(n : Int)), r) else none
    else
      match parseNatNum (c :: rest) with
      | none => none
      | some (n, r) =>
        if numDelimOk r then some (Json.num (n : Int), r) else none

mutual
/-- One JSON value, leading whitespace allowed.  Fuel decreases at every
nesting step, so `length + 1` fuel always suffices. -/
def parseValue : Nat → List Char → Option (Json × List Char)
  | 0, _ => none
  | f + 1, cs =>
    match skipWs cs with
    | [] => none
    | c :: rest =>
      if c = 'n' then
        if ("ull").data.isPrefixOf rest then
          some (Json.null, rest.drop 3)
        else none
      else if c = 't' then
        if ("rue").data.isPrefixOf rest then
          some (Json.bool true, rest.drop 3)
        else none
      else if c = 'f' then
        if ("alse").data.isPrefixOf rest then
          some (Json.bool false, rest.drop 4)
        else none
      else if c = '"' then
        match parseStr rest with
        | none => none
        | some (s, r) => some (Json.str ⟨s⟩, r)
      else if c = '[' then
        match skipWs rest with
        | [] => none
        | c2 :: r =>
          if c2 = ']' then some (Json.arr [], r)
          else
            match parseElemsRequired f (c2 :: r) with
            | none => none
            | some (xs, r2) => some (Json.arr xs, r2)
      else if c = '\x7b' then
        match skipWs rest with
        | [] => none
        | c2 :: r =>
          if c2 = '\x7d' then some (Json.obj [], r)
          else
            match parseMembersRequired f (c2 :: r) with
            | none => none
            | some (kvs, r2) => some (Json.obj kvs, r2)
      else parseNumber (c :: rest)

/-- The elements of a non-empty array, up to and including `]`. -/
def parseElemsRequired : Nat → List Char → Option (List Json × List Char)
  | 0, _ => none
  | f + 1, cs =>
    match parseValue f cs with
    | none => none
    | some (x, r) =>
      match skipWs r with
      | [] => none
      | c :: r2 =>
        if c = ',' then
          match parseElemsRequired f r2 with
          | none => none
          | some (xs, r3) => some (x :: xs, r3)
        else if c = ']' then some ([x], r2)
        else none

/-- The members of a non-empty object, up to and including the brace. -/
def parseMembersRequired : Nat → List Char →
    Option (List (String × Json) × List Char)
  | 0, _ => none
  | f + 1, cs =>
    match skipWs cs with
    | [] => none
    | c :: rest =>
      if c = '"' then
        match parseStr rest with
        | none => none
        | some (k, r) =>
          match skipWs r with
          | [] => none
          | c2 :: r2 =>
            if c2 = ':' then
              match parseValue f r2 with
              | none => none
              | some (v, r3) =>
                match skipWs r3 with
                | [] => none
                | c3 :: r4 =>
                  if c3 = ',' then
                    match parseMembersRequired f r4 with
                    | none => none
                    | some (kvs, r5) => some ((⟨k⟩, v) :: kvs, r5)
                  else if c3 = '\x7d' then some ([(⟨k⟩, v)], r4)
                  else none
            else none
      else none
end

/-- `json.loads`: parse one value and require only whitespace after it. -/
def jsonLoads (cs : List Char) : Option Json :=
  match parseValue (cs.length + 1) cs with
  | none => none
  | some (v, rest) => if (skipWs rest).isEmpty then some v else none

/-! ### `readMessageRaw` -/

/-- The read loop of `readMessageRaw` over the stripped input lines: scan for
the begin sentinel, then accumulate stripped lines until the end sentinel or
end of stream. -/
def readLoop : List (List Char) → Bool → List (List Char) → List (List Char)
  | [], _, raw => raw
  | l :: ls, began, raw =>
    if began then
      if stripChars l = endSentinelChars then raw
      else readLoop ls true (raw ++ [stripChars l])
    else
      if stripChars l = beginSentinelChars then readLoop ls true raw
      else readLoop ls false raw

inductive ReadErr where
  | protocolError | jsonDecodeError
deriving DecidableEq, Repr

/-- `CMakeClient.readMessageRaw` on a line stream (end of list = EOF, i.e.
the process exited or the pipe closed): if any lines were accumulated they
are joined and handed to `json.loads` (a parse failure raises a JSON decode
error); only an empty accumulation raises the `CMakeException` transport
error. -/
def readMessageRaw (ls : List (List Char)) : Except ReadErr Json :=
  let raw := readLoop ls false []
  if raw.isEmpty then Except.error ReadErr.protocolError
  else
    match jsonLoads (joinLines raw) with
    | some v => Except.ok v
    | none => Except.error ReadErr.jsonDecodeError

/-! ### Size measures for parser fuel -/

mutual
def sizeV : Json → Nat
  | Json.null => 1
  | Json.bool _ => 1
  | Json.num _ => 1
  | Json.str _ => 1
  | Json.arr xs => 1 + seqSize xs
  | Json.obj kvs => 1 + memSize kvs

def seqSize : List Json → Nat
  | [] => 1
  | x :: xs => 1 + sizeV x + seqSize xs

def memSize : List (String × Json) → Nat
  | [] => 1
  | kv :: kvs => 1 + sizeV kv.2 + memSize kvs
end

/-! ### Predicates used in the codec proofs -/

/-- A well-formed dumped content line: non-empty, no leading or trailing
whitespace, and a line starting with `]` is at most a bracket plus comma
(so no content line can collide with the end sentinel). -/
abbrev lineOk (c : List Char) : Prop :=
  c ≠ [] ∧ isStripChar (c.headD 'x') = false ∧
  isStripChar (c.getLastD 'x') = false ∧
  (c.headD 'x' = ']' → c.length ≤ 2)

/-- A well-formed block of dumped lines: non-empty, all lines well formed,
and the last line, when it starts with `]`, is the bare bracket (so that a
trailing comma keeps it within `lineOk`). -/
abbrev blockOk (b : List (Nat × List Char)) : Prop :=
  b ≠ [] ∧ (∀ p ∈ b, lineOk p.2) ∧
  ((b.getLastD (0, ['x'])).2.headD 'x' = ']' →
    (b.getLastD (0, ['x'])).2.length ≤ 1)

/-- All characters are JSON whitespace. -/
def isWsList (w : List Char) : Bool := w.all isJsonWs

/-- After a complete flattened value, the directly following character never
extends the value: it is a newline, comma, closing bracket/brace, or nothing
(in particular not a digit and not `.`/`e`/`E`). -/
def restDelim : List Char → Bool
  | [] => true
  | c :: _ => !(c.isDigit || c = '.' || c = 'e' || c = 'E')

/-! ## Statement synthesizer (`CMakeInterpreter.pretend_to_be_meson`) -/

/-- `base_name = str(tgt.name); base_name = base_name.replace('-', '_')`. -/
def sanitizeName (s : String) : String :=
  ⟨s.data.map (fun c => if c = '-' then '_' else c)⟩

/-- `ConverterTarget.meson_func`:
`CMAKE_TGT_TYPE_MAP.get(self.type.upper())`. -/
def mesonFunc (ty : String) : Option String :=
  lookupA cmakeTgtTypeMap (strUpper ty)

/-- The four statement forms `process_target` emits per target, in emission
order: the `include_directories` binding, the `files` binding, the
target-declaration call binding, and the `declare_dependency` binding. -/
inductive StmtKind where
  | incDirs | srcList | tgtDecl | depDecl
deriving DecidableEq, Repr

/-- A synthesized statement node.  `owner` identifies the target (by its index
in the conversion pass) whose processing emitted the node; `var` is the
variable the node assigns (derived from the sanitized target name).  The
keyword arguments of the underlying function calls are not modelled — the
ordering and memoization claims concern only statement identity and order. -/
inductive Stmt where
  | project (name : String) (langs : List String)
  | node (kind : StmtKind) (owner : Nat) (var : String)
deriving DecidableEq, Repr

/-- The owner index of a statement, if any. -/
def stmtOwner : Stmt → Option Nat
  | Stmt.project _ _ => none
  | Stmt.node _ o _ => some o

/-- Does the statement belong to target `i`? -/
def ownerIs (i : Nat) (s : Stmt) : Bool := stmtOwner s = some i

/-- Is the statement the target-declaration of target `i`? -/
def isTgtDeclOf (i : Nat) (s : Stmt) : Bool :=
  match s with
  | Stmt.node StmtKind.tgtDecl o _ => o = i
  | _ => false

/-- The four statements (`inc_node`, `src_node`, `tgt_node`, `dep_node`)
appended for one target, with the variable names
`{base}_inc`, `{base}_src`, `{base}`, `{base}_dep`. -/
def blockFor (t : ConverterTarget) (idx : Nat) : List Stmt :=
  [Stmt.node StmtKind.incDirs idx (sanitizeName t.name ++ "_inc"),
   Stmt.node StmtKind.srcList idx (sanitizeName t.name ++ "_src"),
   Stmt.node StmtKind.tgtDecl idx (sanitizeName t.name),
   Stmt.node StmtKind.depDecl idx (sanitizeName t.name ++ "_dep")]

/-- The dependencies `process_target` recurses into, in order: `link_with`,
then `object_libs`. -/
def depsOf (t : ConverterTarget) : List Nat := t.linkWith ++ t.objectLibs

/-- The mutable state of `pretend_to_be_meson`: the `processed` dict keyed by
target *name* (most recent binding first, with the target variable as the
retained payload) and the emitted statement list `root_cb.lines`. -/
structure SynState where
  processed : List (String × String)
  lines : List Stmt
deriving DecidableEq, Repr

inductive SynErr where
  | outOfFuel | unknownTargetType | badIndex | notAnalysed
deriving DecidableEq, Repr

/-- One dependency loop of `process_target`
(`for i in tgt.link_with: if i.name not in processed: process_target(i)`),
parametrized by the recursive processing function `pt` (which is
`processTarget` at the next-smaller fuel). -/
def processDeps (ts : List ConverterTarget)
    (pt : Nat → SynState → Except SynErr SynState) :
    List Nat → SynState → Except SynErr SynState
  | [], st => Except.ok st
  | d :: ds, st =>
    match ts[d]? with
    | none => Except.error SynErr.badIndex
    | some dt =>
      match (if (lookupA st.processed dt.name).isSome then Except.ok st
             else pt d st) with
      | Except.error e => Except.error e
      | Except.ok st' => processDeps ts pt ds st'

/-- `process_target(tgt)`: recursively process every `link_with` and
`object_libs` dependency whose *name* is not yet in `processed`, resolve the
meson target function (raising on unknown target types), then append the four
statement nodes and record the name in `processed`.  The fuel argument makes
the recursion well-founded in Lean; Python recurses without bound, so a
dependency cycle (which exhausts any fuel) corresponds to non-termination and
never produces a statement sequence. -/
def processTarget (ts : List ConverterTarget) :
    Nat → Nat → SynState → Except SynErr SynState
  | 0, _, _ => Except.error SynErr.outOfFuel
  | f + 1, idx, st =>
    match ts[idx]? with
    | none => Except.error SynErr.badIndex
    | some tgt =>
      match processDeps ts (processTarget ts f) tgt.linkWith st with
      | Except.error e => Except.error e
      | Except.ok st1 =>
        match processDeps ts (processTarget ts f) tgt.objectLibs st1 with
        | Except.error e => Except.error e
        | Except.ok st2 =>
          match mesonFunc tgt.type with
          | none => Except.error SynErr.unknownTargetType
          | some _ =>
            Except.ok ⟨(tgt.name, sanitizeName tgt.name) :: st2.processed,
                       st2.lines ++ blockFor tgt idx⟩

/-- The top-level loop of `pretend_to_be_meson`
(`for i in self.targets: if i.name not in processed: process_target(i)`). -/
def synthAll (ts : List ConverterTarget) :
    List Nat → SynState → Except SynErr SynState
  | [], st => Except.ok st
  | i :: rest, st =>
    match ts[i]? with
    | none => Except.error SynErr.badIndex
    | some t =>
      match (if (lookupA st.processed t.name).isSome then Except.ok st
             else processTarget ts (ts.length + 1) i st) with
      | Except.error e => Except.error e
      | Except.ok st' => synthAll ts rest st'

/-- `pretend_to_be_meson`: raises if `analyse` has not set a project name,
emits the `project(...)` statement, then processes every target.  A fuel of
`ts.length + 1` per top-level call suffices for any acyclic dependency graph
(the recursion nesting depth is bounded by the length of a dependency path);
cyclic graphs exhaust the fuel, corresponding to Python's unbounded
recursion. -/
def pretendToBeMeson (ts : List ConverterTarget) (projectName : String)
    (languages : List String) : Except SynErr SynState :=
  if projectName = "" then Except.error SynErr.notAnalysed
  else synthAll ts (List.range ts.length)
    ⟨[], [Stmt.project projectName languages]⟩

/-- A minimal converted target (no flags, sources or libraries) used to build
concrete conversion passes in the theorems below. -/
def mkSimpleTarget (name fullName type : String)
    (linkWith objectLibs : List Nat) : ConverterTarget :=
  { name := name, fullName := fullName, type := type, install := false,
    installDir := "", linkLibraries := [], linkFlags := [], languages := [],
    sources := [], generated := [], includes := [], linkWith := linkWith,
    objectLibs := objectLibs, compileOpts := [], pie := false,
    overrideOptions := [] }

/-! ### Invariants used to reason about the synthesizer -/

/-- A rank function witnessing that the `linkWith`/`objectLibs` graph is
acyclic: every dependency edge strictly decreases the rank. -/
abbrev RankOk (ts : List ConverterTarget) (rank : Nat → Nat) : Prop :=
  ∀ a, (ha : a < ts.length) → ∀ b ∈ depsOf ts[a], rank b < rank a

/-- The central invariant: the statements owned by target `i` are exactly its
four-statement block when `i`'s name has been processed, and absent
otherwise.  (With pairwise-distinct target names, the name of target `i`
identifies `i`.) -/
def SynInv (ts : List ConverterTarget) (st : SynState) : Prop :=
  ∀ i, (hi : i < ts.length) →
    st.lines.filter (ownerIs i) =
      (if (lookupA st.processed ts[i].name).isSome then blockFor ts[i] i
       else [])

/-- The ordering invariant: once target `a` has been emitted, each of its
dependencies' full four-statement blocks lies strictly before `a`'s
target-declaration statement. -/
def OrdInv (ts : List ConverterTarget) (st : SynState) : Prop :=
  ∀ a, (ha : a < ts.length) →
    (lookupA st.processed ts[a].name).isSome = true →
    ∀ b, (hb : b < ts.length) → b ∈ depsOf ts[a] →
      ∃ pre suf,
        st.lines = pre ++
          Stmt.node StmtKind.tgtDecl a (sanitizeName ts[a].name) :: suf ∧
        pre.filter (ownerIs b) = blockFor ts[b] b

/-- Processed names only accumulate. -/
def ProcMono (st st' : SynState) : Prop :=
  ∀ n, (lookupA st.processed n).isSome = true →
    (lookupA st'.processed n).isSome = true

/-- Every name processed during a call belongs to a target of rank at most
`bound` (used to propagate acyclicity through the recursion). -/
def NewNames (ts : List ConverterTarget) (rank : Nat → Nat) (bound : Nat)
    (st st' : SynState) : Prop :=
  ∀ n, (lookupA st'.processed n).isSome = true →
    (lookupA st.processed n).isSome = true ∨
    ∃ j, ∃ hj : j < ts.length, ts[j].name = n ∧ rank j ≤ bound

end MesonCMake

namespace MesonCMake

/-! # Theorems -/

/-! ## Association list lemmas -/

theorem lookupA_updateA_self {α : Type} (l : List (String × α)) (k : String)
    (v w : α) (h : lookupA l k = some w) :
    lookupA (updateA l k v) k = some v := by
  induction l with
  | nil => simp [lookupA] at h
  | cons hd tl ih =>
    obtain ⟨k', v'⟩ := hd
    by_cases hk : k' = k
    · subst hk; simp [lookupA, updateA]
    · simp [lookupA, updateA, hk] at h ⊢
      exact ih h

theorem lookupA_updateA_ne {α : Type} (l : List (String × α)) (a b : String)
    (v : α) (h : b ≠ a) : lookupA (updateA l a v) b = lookupA l b := by
  induction l with
  | nil => simp [updateA]
  | cons hd tl ih =>
    obtain ⟨k0, v0⟩ := hd
    by_cases hk : k0 = a
    · subst hk
      have hne : k0 ≠ b := fun hh => h hh.symm
      simp [lookupA, updateA, hne]
    · simp only [updateA, hk, if_neg hk, lookupA]
      by_cases hk' : k0 = b
      · simp [hk']
      · simp [hk', ih]

theorem updateA_eq_self {α : Type} (l : List (String × α)) (k : String)
    (v : α) (h : lookupA l k = some v) : updateA l k v = l := by
  induction l with
  | nil => simp [lookupA] at h
  | cons hd tl ih =>
    obtain ⟨k', v'⟩ := hd
    by_cases hk : k' = k
    · subst hk
      simp [lookupA] at h
      simp [updateA, h]
    · simp [lookupA, hk] at h
      simp [updateA, hk, ih h]

theorem updateA_none {α : Type} (l : List (String × α)) (k : String)
    (v : α) (h : lookupA l k = none) : updateA l k v = l := by
  induction l with
  | nil => simp [updateA]
  | cons hd tl ih =>
    obtain ⟨k', v'⟩ := hd
    by_cases hk : k' = k
    · subst hk; simp [lookupA] at h
    · simp [lookupA, hk] at h
      simp [updateA, hk, ih h]

/-! ## C2: the query loop returns the first matching reply, skipping and
logging everything before it -/

/-- C2: for every request cookie and incoming message sequence that contains a
message with that cookie and kind `reply` or `error`, `query` returns the
first such message, and the messages before it are exactly the
logged-and-skipped ones, none of which satisfies the return condition. -/
theorem query_returns_first_match (c : String) (ms : List Msg)
    (h : ∃ m ∈ ms, isQueryResult c m = true) :
    ∃ pre m post,
      ms = pre ++ m :: post ∧
      query c ms = some (pre, m) ∧
      isQueryResult c m = true ∧
      ∀ x ∈ pre, isQueryResult c x = false := by
  induction ms with
  | nil => simp at h
  | cons hd tl ih =>
    by_cases hhd : isQueryResult c hd = true
    · exact ⟨[], hd, tl, by simp [query, hhd]⟩
    · have htl : ∃ m ∈ tl, isQueryResult c m = true := by
        rcases h with ⟨m, hm, hq⟩
        rcases List.mem_cons.mp hm with rfl | hm'
        · exact absurd hq hhd
        · exact ⟨m, hm', hq⟩
      rcases ih htl with ⟨pre, m, post, hsplit, hq, hres, hpre⟩
      refine ⟨hd :: pre, m, post, by simp [hsplit], ?_, hres, ?_⟩
      · simp [query, hhd, hq]
      · intro x hx
        rcases List.mem_cons.mp hx with rfl | hx'
        · simpa using hhd
        · exact hpre x hx'

/-! ## Standard/PIC extraction lemmas -/

/-- Every flag kept by the inner extraction loop matches neither the `std`
regex nor a PIC/PIE flag. -/
theorem extractLangAux_clean (lang : String) (args : List String) :
    ∀ ov pie, ∀ j ∈ (extractLangAux lang args ov pie).1,
      stdMatch j = none ∧ j ∉ picFlags := by
  induction args with
  | nil => intro ov pie j hj; simp [extractLangAux] at hj
  | cons a rest ih =>
    intro ov pie j hj
    cases hstd : stdMatch a with
    | some std =>
      simp only [extractLangAux, hstd] at hj
      exact ih _ _ j hj
    | none =>
      by_cases hpic : a ∈ picFlags
      · simp only [extractLangAux, hstd, if_pos hpic] at hj
        exact ih _ _ j hj
      · simp only [extractLangAux, hstd, if_neg hpic, List.mem_cons] at hj
        rcases hj with rfl | hj
        · exact ⟨hstd, hpic⟩
        · exact ih _ _ j hj

/-- On a flag list that is already free of `std` and PIC/PIE tokens, the inner
extraction loop is the identity. -/
theorem extractLangAux_id (lang : String) (args : List String)
    (h : ∀ j ∈ args, stdMatch j = none ∧ j ∉ picFlags) :
    ∀ ov pie, extractLangAux lang args ov pie = (args, ov, pie) := by
  induction args with
  | nil => intro ov pie; rfl
  | cons a rest ih =>
    intro ov pie
    obtain ⟨hstd, hpic⟩ := h a (List.mem_cons_self a rest)
    have hrest : ∀ j ∈ rest, stdMatch j = none ∧ j ∉ picFlags :=
      fun j hj => h j (List.mem_cons_of_mem a hj)
    simp [extractLangAux, hstd, hpic, ih hrest ov pie]

/-- After running the extraction loop body for `lang`, the entry stored under
`lang` is clean. -/
theorem extractLangState_clean (s : ExtractState) (lang : String) :
    ∀ l, lookupA (extractLangState s lang).opts lang = some l →
      ∀ j ∈ l, stdMatch j = none ∧ j ∉ picFlags := by
  intro l hl j hj
  cases hcur : lookupA s.opts lang with
  | none =>
    simp only [extractLangState, hcur] at hl
    exact absurd hl (by simp)
  | some cur =>
    simp only [extractLangState, hcur] at hl
    rw [lookupA_updateA_self s.opts lang _ cur hcur] at hl
    cases hl
    exact extractLangAux_clean lang cur _ _ j hj

/-- The extraction loop body for `lang` does not disturb the entry of any
other language. -/
theorem extractLangState_other (s : ExtractState) (lang other : String)
    (h : other ≠ lang) :
    lookupA (extractLangState s lang).opts other = lookupA s.opts other := by
  unfold extractLangState
  cases hcur : lookupA s.opts lang with
  | none => rfl
  | some cur => exact lookupA_updateA_ne s.opts lang other _ h

/-- If the entry for `lang` is absent or already clean, the extraction loop
body for `lang` does nothing. -/
theorem extractLangState_id (s : ExtractState) (lang : String)
    (h : ∀ l, lookupA s.opts lang = some l →
      ∀ j ∈ l, stdMatch j = none ∧ j ∉ picFlags) :
    extractLangState s lang = s := by
  cases hcur : lookupA s.opts lang with
  | none => simp [extractLangState, hcur]
  | some cur =>
    simp only [extractLangState, hcur]
    rw [extractLangAux_id lang cur (h cur hcur) s.overrideOptions s.pie,
      updateA_eq_self _ _ _ hcur]

/-- Full characterisation of the inner extraction loop: the kept list is the
sublist of non-`std` non-PIC tokens in order, every `std` match is appended to
`override_options` as `<lang>_std=<group2>` in scan order, and `pie` becomes
true exactly when it was or a PIC/PIE flag occurs (outside a `std` match,
mirroring the `elif`). -/
theorem extractLangAux_spec (lang : String) :
    ∀ (args ov : List String) (pie : Bool),
    extractLangAux lang args ov pie =
      (args.filter (fun j => decide (stdMatch j = none) &&
          decide (j ∉ picFlags)),
       ov ++ args.filterMap
          (fun j => (stdMatch j).map (fun std => lang ++ "_std=" ++ std)),
       pie || args.any (fun j => decide (stdMatch j = none) &&
          decide (j ∈ picFlags))) := by
  intro args
  induction args with
  | nil => intro ov pie; simp [extractLangAux]
  | cons a rest ih =>
    intro ov pie
    cases hstd : stdMatch a with
    | some std =>
      simp only [extractLangAux, hstd]
      rw [ih (ov ++ [lang ++ "_std=" ++ std]) pie]
      simp [List.filter_cons, List.filterMap_cons, List.any_cons, hstd]
    | none =>
      by_cases hpic : a ∈ picFlags
      · simp only [extractLangAux, hstd, if_pos hpic]
        rw [ih ov true]
        simp [List.filter_cons, List.filterMap_cons, List.any_cons, hstd, hpic]
      · simp only [extractLangAux, hstd, if_neg hpic]
        rw [ih ov pie]
        simp [List.filter_cons, List.filterMap_cons, List.any_cons, hstd, hpic]

/-- State-level reading of one language pass: what lands in
`override_options` and `pie` (languages absent from the dict contribute
nothing). -/
theorem extractLangState_spec (s : ExtractState) (lang : String) :
    (extractLangState s lang).overrideOptions = s.overrideOptions ++
      ((lookupA s.opts lang).getD []).filterMap
        (fun j => (stdMatch j).map (fun std => lang ++ "_std=" ++ std)) ∧
    (extractLangState s lang).pie = (s.pie ||
      ((lookupA s.opts lang).getD []).any
        (fun j => decide (stdMatch j = none) && decide (j ∈ picFlags))) := by
  cases hcur : lookupA s.opts lang with
  | none => simp [extractLangState, hcur]
  | some cur =>
    simp only [extractLangState, hcur, extractLangAux_spec lang cur
      s.overrideOptions s.pie, Option.getD_some]
    constructor <;> trivial

/-! ## C6: after postprocessing, the `c`/`cpp` compile-arg lists hold no
`std` or PIC/PIE tokens (the claim's "every language" is refuted below) -/

/-- C6 (amended): after the standard/PIC extraction pass of `postprocess`,
(1) the compile-arg lists of the scanned languages — `c` and `cpp` only —
contain no token matching the `std` regex and no PIC/PIE flag; and the
removed tokens are hoisted, not dropped: (2) `override_options` gains exactly
`<lang>_std=<X>` for every token of the `c` then the `cpp` list whose `std`
regex group 2 is `X`, in scan order, and (3) `pie` is set exactly when it
already was or a PIC/PIE flag occurs in the `c` or `cpp` list (outside a
`std` match). -/
theorem extract_no_std_pic_c_cpp (s : ExtractState) :
    (∀ lang, lang = "c" ∨ lang = "cpp" →
      ∀ l, lookupA (extractStdPic s).opts lang = some l →
        ∀ t ∈ l, stdMatch t = none ∧ t ∉ picFlags) ∧
    (extractStdPic s).overrideOptions = s.overrideOptions ++
      ((lookupA s.opts "c").getD []).filterMap
        (fun j => (stdMatch j).map (fun std => "c" ++ "_std=" ++ std)) ++
      ((lookupA s.opts "cpp").getD []).filterMap
        (fun j => (stdMatch j).map (fun std => "cpp" ++ "_std=" ++ std)) ∧
    (extractStdPic s).pie = (s.pie ||
      ((lookupA s.opts "c").getD []).any
        (fun j => decide (stdMatch j = none) && decide (j ∈ picFlags)) ||
      ((lookupA s.opts "cpp").getD []).any
        (fun j => decide (stdMatch j = none) && decide (j ∈ picFlags))) := by
  refine ⟨?_, ?_, ?_⟩
  · intro lang hlang l hl
    rcases hlang with rfl | rfl
    · rw [extractStdPic,
        extractLangState_other (extractLangState s "c") "cpp" "c"
          (by decide)] at hl
      exact extractLangState_clean s "c" l hl
    · exact extractLangState_clean (extractLangState s "c") "cpp" l hl
  · rw [extractStdPic, (extractLangState_spec (extractLangState s "c") "cpp").1,
      extractLangState_other s "c" "cpp" (by decide),
      (extractLangState_spec s "c").1]
  · rw [extractStdPic, (extractLangState_spec (extractLangState s "c") "cpp").2,
      extractLangState_other s "c" "cpp" (by decide),
      (extractLangState_spec s "c").2]

theorem extract_no_std_pic_c_cpp_witness :
    (stdMatch "-O2" = none ∧ "-O2" ∉ picFlags) ∧
    (extractStdPic ⟨[("c", ["-std=c11", "-fPIC", "-O2"])], ["prev"],
        false⟩).overrideOptions =
      ["prev"] ++
        (["-std=c11", "-fPIC", "-O2"].filterMap
          (fun j => (stdMatch j).map (fun std => "c" ++ "_std=" ++ std))) ++
        (([] : List String).filterMap
          (fun j => (stdMatch j).map (fun std => "cpp" ++ "_std=" ++ std))) ∧
    (extractStdPic ⟨[("c", ["-std=c11", "-fPIC", "-O2"])], ["prev"],
        false⟩).pie =
      (false ||
        (["-std=c11", "-fPIC", "-O2"].any
          (fun j => decide (stdMatch j = none) && decide (j ∈ picFlags))) ||
        (([] : List String).any
          (fun j => decide (stdMatch j = none) && decide (j ∈ picFlags)))) :=
  have h := extract_no_std_pic_c_cpp
    ⟨[("c", ["-std=c11", "-fPIC", "-O2"])], ["prev"], false⟩
  ⟨h.1 "c" (Or.inl rfl) ["-O2"] (by decide) "-O2" (by decide),
   h.2.1, h.2.2⟩

/-- C6 counterexample: for a language other than `c`/`cpp` (here CUDA) the
extraction pass leaves a `-std=` token (and would leave PIC flags) in place:
the state is returned unchanged even though the stored list contains a token
matching the `std` regex. -/
theorem extract_leaves_other_languages :
    extractStdPic ⟨[("cuda", ["-std=c++14", "-fPIC"])], [], false⟩ =
      ⟨[("cuda", ["-std=c++14", "-fPIC"])], [], false⟩ ∧
    stdMatch "-std=c++14" = some "c++14" ∧ "-fPIC" ∈ picFlags := by
  refine ⟨?_, by decide, by decide⟩
  rfl

/-! ## C8: the standard/PIC extraction pass is idempotent -/

/-- C8: running the standard/PIC extraction a second time on the state
produced by one pass changes nothing: neither the per-language compile-arg
lists nor `override_options` nor `pie`. -/
theorem extract_idempotent (s : ExtractState) :
    extractStdPic (extractStdPic s) = extractStdPic s := by
  have hcpp : ∀ l, lookupA (extractStdPic s).opts "cpp" = some l →
      ∀ j ∈ l, stdMatch j = none ∧ j ∉ picFlags :=
    extractLangState_clean (extractLangState s "c") "cpp"
  have hc : ∀ l, lookupA (extractStdPic s).opts "c" = some l →
      ∀ j ∈ l, stdMatch j = none ∧ j ∉ picFlags := by
    intro l hl
    rw [extractStdPic, extractLangState_other (extractLangState s "c") "cpp" "c"
      (by decide)] at hl
    exact extractLangState_clean s "c" l hl
  show extractLangState (extractLangState (extractStdPic s) "c") "cpp" =
    extractStdPic s
  rw [extractLangState_id (extractStdPic s) "c" hc,
    extractLangState_id (extractStdPic s) "cpp" hcpp]

/-! ## C7: compile-arg accumulation in `ConverterTarget.__init__` -/

theorem lookupA_append {α : Type} (l l' : List (String × α)) (k : String) :
    lookupA (l ++ l') k =
      match lookupA l k with
      | some v => some v
      | none => lookupA l' k := by
  induction l with
  | nil => simp [lookupA]
  | cons hd tl ih =>
    obtain ⟨k0, v0⟩ := hd
    by_cases hk : k0 = k <;> simp [lookupA, hk, ih]

theorem lookupA_ensureKey_of_some {α : Type} (l : List (String × α))
    (k k' : String) (v w : α) (h : lookupA l k' = some w) :
    lookupA (ensureKey l k v) k' = some w := by
  unfold ensureKey
  cases hk : lookupA l k with
  | some u => exact h
  | none => rw [lookupA_append, h]

theorem lookupA_ensureKey_self {α : Type} (l : List (String × α))
    (k : String) (v : α) :
    lookupA (ensureKey l k v) k = some ((lookupA l k).getD v) := by
  unfold ensureKey
  cases hk : lookupA l k with
  | some u => simp [hk]
  | none => rw [lookupA_append, hk]; simp [lookupA]

theorem lookupA_ensureKey_ne {α : Type} (l : List (String × α))
    (k k' : String) (v : α) (h : k' ≠ k) :
    lookupA (ensureKey l k v) k' = lookupA l k' := by
  unfold ensureKey
  cases hk : lookupA l k with
  | some u => rfl
  | none =>
    rw [lookupA_append]
    cases h' : lookupA l k' with
    | some w => rfl
    | none => simp [lookupA, h', Ne.symm h]

/-- The invariant maintained over the `__init__` file-group loop: every stored
compile-arg list is duplicate-free. -/
def NodupOpts (opts : List (String × List String)) : Prop :=
  ∀ lang l, lookupA opts lang = some l → l.Nodup

theorem accumOpts_nodup (opts : List (String × List String)) (lang : String)
    (args : List String) (h : NodupOpts opts) (ha : args.Nodup) :
    NodupOpts (accumOpts opts lang args) := by
  intro lg l hl
  unfold accumOpts at hl
  have hself : lookupA (ensureKey opts lang []) lang =
      some ((lookupA opts lang).getD []) := lookupA_ensureKey_self opts lang []
  have hnodup0 : NodupOpts (ensureKey opts lang []) := by
    intro lg' l' hl'
    by_cases hlg' : lg' = lang
    · subst hlg'
      rw [hself] at hl'
      cases hl'
      cases hk : lookupA opts lg' with
      | some w => simpa [hk] using h lg' w hk
      | none => simp [hk]
    · rw [lookupA_ensureKey_ne opts lang lg' [] hlg'] at hl'
      exact h lg' l' hl'
  have hcur0 : lookupA (ensureKey opts lang []) lang =
      some ((lookupA (ensureKey opts lang []) lang).getD []) := by
    simp [hself]
  by_cases hlg : lg = lang
  · rw [hlg] at hl
    rw [lookupA_updateA_self _ _ _ _ hcur0] at hl
    cases hl
    have hcurnodup : ((lookupA (ensureKey opts lang []) lang).getD []).Nodup :=
      hnodup0 lang _ hcur0
    refine List.Nodup.append hcurnodup (ha.filter _) ?_
    intro a hacur hafil
    have hmem := List.of_mem_filter hafil
    simp only [decide_eq_true_eq] at hmem
    exact hmem hacur
  · rw [lookupA_updateA_ne _ _ _ _ hlg] at hl
    exact hnodup0 lg l hl

theorem addGroup_compileOpts (t : ConverterTarget) (g : CompileGroup) :
    (ConverterTarget.addGroup t g).compileOpts =
      accumOpts t.compileOpts
        ((lookupA langCmakeToMeson (strLower g.language)).getD "c")
        (g.flags ++ g.defines.map (fun d => "-D" ++ d)) := by
  unfold ConverterTarget.addGroup
  by_cases hig : g.isGenerated <;> simp [hig]

/-- C7 (amended): a token of a compile group's flags-plus-rewritten-defines is
appended only when not already present in the language's accumulated list, so
per-language compile-arg lists stay duplicate-free provided each single
group's own flags-plus-defines list is duplicate-free (duplicates *within*
one group survive — see the counterexample). -/
theorem init_compileOpts_nodup (target : CMakeTarget)
    (h : ∀ g ∈ target.files,
      (g.flags ++ g.defines.map (fun d => "-D" ++ d)).Nodup) :
    ∀ lang l, lookupA (ConverterTarget.init target).compileOpts lang =
      some l → l.Nodup := by
  unfold ConverterTarget.init
  suffices hgen : ∀ (gs : List CompileGroup) (t : ConverterTarget),
      NodupOpts t.compileOpts →
      (∀ g ∈ gs, (g.flags ++ g.defines.map (fun d => "-D" ++ d)).Nodup) →
      NodupOpts (gs.foldl ConverterTarget.addGroup t).compileOpts by
    exact hgen target.files _ (fun lang l hl => by simp [lookupA] at hl) h
  intro gs
  induction gs with
  | nil => intro t ht _; exact ht
  | cons g rest ih =>
    intro t ht hall
    refine ih (ConverterTarget.addGroup t g) ?_
      (fun g' hg' => hall g' (List.mem_cons_of_mem g hg'))
    rw [addGroup_compileOpts]
    exact accumOpts_nodup _ _ _ ht (hall g (List.mem_cons_self g rest))

theorem init_compileOpts_nodup_witness :
    (["-Wall", "-DX"] : List String).Nodup :=
  init_compileOpts_nodup
    { name := "t", fullName := "t", type := "EXECUTABLE", install := false,
      installPaths := [], linkLibraries := [], linkFlags := [],
      linkLangFlags := [],
      files := [⟨"C", ["-Wall"], ["X"], [], ["a.c"], false⟩],
      srcDir := "", buildDir := "", artifacts := [] }
    (by decide) "c" ["-Wall", "-DX"] (by decide)

/-- C7 counterexample: when the *same* token occurs twice within a single
compile group's flag list, both occurrences are appended (the membership check
looks only at the list accumulated *before* this group), so the per-language
compile-arg list does contain duplicates. -/
theorem init_compileOpts_duplicate_within_group :
    lookupA (ConverterTarget.init
      { name := "t", fullName := "t", type := "EXECUTABLE", install := false,
        installPaths := [], linkLibraries := [], linkFlags := [],
        linkLangFlags := [],
        files := [⟨"C", ["-a", "-a"], [], [], ["a.c"], false⟩],
        srcDir := "", buildDir := "", artifacts := [] }).compileOpts "c" =
      some ["-a", "-a"] ∧ ¬(["-a", "-a"] : List String).Nodup := by
  constructor
  · rfl
  · decide

/-! ## C10: object-library inference unconditionally strips `.o` entries -/

/-- C10: `process_object_libs` removes every generated entry ending in `.o`,
and keeps exactly the others, regardless of the object-library sibling list —
entries with no matching sibling are silently discarded, not kept or
reported. -/
theorem processObjectLibs_generated_iff (t : ConverterTarget)
    (objs : List (Nat × ConverterTarget)) (x : String) :
    x ∈ (processObjectLibs t objs).generated ↔
      x ∈ t.generated ∧ strEndsWith x ".o" = false := by
  simp [processObjectLibs, List.mem_filter]

/-! ## Second-pass (`analyse`) plumbing for object-library inference -/

theorem objectLibsPassStep_length (ol : List Nat) (ts : List ConverterTarget)
    (i : Nat) : (objectLibsPassStep ol ts i).length = ts.length := by
  unfold objectLibsPassStep
  cases h : ts[i]? <;> simp

theorem objectLibsPassAux_succ (ol : List Nat) (ts : List ConverterTarget)
    (n : Nat) :
    objectLibsPassAux ol ts (n + 1) =
      objectLibsPassStep ol (objectLibsPassAux ol ts n) n := by
  unfold objectLibsPassAux
  rw [List.range_succ, List.foldl_append]
  rfl

theorem objectLibsPassAux_length (ol : List Nat) (ts : List ConverterTarget)
    (n : Nat) : (objectLibsPassAux ol ts n).length = ts.length := by
  induction n with
  | zero => rfl
  | succ n ih => rw [objectLibsPassAux_succ, objectLibsPassStep_length, ih]

/-- Indices not yet visited still hold their original target. -/
theorem objectLibsPassAux_get_ge (ol : List Nat) (ts : List ConverterTarget) :
    ∀ n j, n ≤ j → (objectLibsPassAux ol ts n)[j]? = ts[j]? := by
  intro n
  induction n with
  | zero => intro j _; rfl
  | succ n ih =>
    intro j hj
    rw [objectLibsPassAux_succ]
    unfold objectLibsPassStep
    cases h : (objectLibsPassAux ol ts n)[n]? with
    | none => exact ih j (by omega)
    | some t =>
      rw [List.getElem?_set_ne (by omega : n ≠ j)]
      exact ih j (by omega)

/-- The pass never changes a target's `sources` or `type`. -/
theorem objectLibsPassStep_shape (ol : List Nat) (ts : List ConverterTarget)
    (i j : Nat) :
    ((objectLibsPassStep ol ts i)[j]?.map (fun t => (t.sources, t.type))) =
      ts[j]?.map (fun t => (t.sources, t.type)) := by
  unfold objectLibsPassStep
  cases h : ts[i]? with
  | none => rfl
  | some t =>
    by_cases hij : i = j
    · subst hij
      have hlt : i < ts.length := (List.getElem?_eq_some_iff.mp h).1
      rw [List.getElem?_set_self hlt, h]
      rfl
    · rw [List.getElem?_set_ne hij]

theorem objectLibsPassAux_shape (ol : List Nat) (ts : List ConverterTarget)
    (n j : Nat) :
    ((objectLibsPassAux ol ts n)[j]?.map (fun t => (t.sources, t.type))) =
      ts[j]?.map (fun t => (t.sources, t.type)) := by
  induction n with
  | zero => rfl
  | succ n ih => rw [objectLibsPassAux_succ, objectLibsPassStep_shape, ih]

/-- Once index `ci` has been visited, later iterations leave it unchanged. -/
theorem objectLibsPassAux_get_stable (ol : List Nat)
    (ts : List ConverterTarget) (ci : Nat) :
    ∀ m, ci < m →
      (objectLibsPassAux ol ts m)[ci]? =
        (objectLibsPassAux ol ts (ci + 1))[ci]? := by
  intro m
  induction m with
  | zero => intro h; exact absurd h (by omega)
  | succ m ih =>
    intro h
    by_cases hm : ci < m
    · rw [objectLibsPassAux_succ]
      unfold objectLibsPassStep
      cases hh : (objectLibsPassAux ol ts m)[m]? with
      | none => exact ih hm
      | some t =>
        rw [List.getElem?_set_ne (by omega : m ≠ ci)]
        exact ih hm
    · have hmeq : m = ci := by omega
      subst hmeq
      rfl

/-! ## C5: object-library edge inference -/

/-- C5 (amended): the inference matches a *computed* object name — the
basename of an object-library source/generated entry with `.o` appended —
against the stripped generated basenames of the consumer.  So a consumer
whose generated list contains `helper.o` gains an `objectLibraries` edge to an
OBJECT_LIBRARY sibling whose sources contain an entry `x` with
`basename(x + '.o') = 'helper.o'` (e.g. the bare entry `helper`), and
`helper.o` is removed from the consumer's generated sources.  (An
object library merely *generating* `helper.o` does not match, since its
computed name would be `helper.o.o` — see the counterexample.) -/
theorem object_lib_edge_inference (ts : List ConverterTarget) (oi ci : Nat)
    (tO tC : ConverterTarget) (x : String)
    (hne : oi ≠ ci)
    (hoi : ts[oi]? = some tO) (hci : ts[ci]? = some tC)
    (htype : tO.type = "OBJECT_LIBRARY")
    (hx : x ∈ tO.sources)
    (hbase : strBasename (x ++ ".o") = "helper.o")
    (hgen : "helper.o" ∈ tC.generated) :
    ∃ tC', (processObjectLibsPass ts)[ci]? = some tC' ∧
      oi ∈ tC'.objectLibs ∧ "helper.o" ∉ tC'.generated := by
  have hciLt : ci < ts.length := (List.getElem?_eq_some_iff.mp hci).1
  have hoiLt : oi < ts.length := (List.getElem?_eq_some_iff.mp hoi).1
  have hmidci : (objectLibsPassAux (objectLibIndices ts) ts ci)[ci]? =
      some tC := by
    rw [objectLibsPassAux_get_ge _ ts ci ci (Nat.le_refl ci), hci]
  have hmidlen : (objectLibsPassAux (objectLibIndices ts) ts ci).length =
      ts.length := objectLibsPassAux_length _ ts ci
  have hshape := objectLibsPassAux_shape (objectLibIndices ts) ts ci oi
  rw [hoi] at hshape
  obtain ⟨tO', hmo⟩ : ∃ tO',
      (objectLibsPassAux (objectLibIndices ts) ts ci)[oi]? = some tO' := by
    cases hmo : (objectLibsPassAux (objectLibIndices ts) ts ci)[oi]? with
    | none => rw [hmo] at hshape; simp at hshape
    | some u => exact ⟨u, rfl⟩
  rw [hmo] at hshape
  simp at hshape
  have hsrc : tO'.sources = tO.sources := hshape.1
  have hstep : (objectLibsPassAux (objectLibIndices ts) ts (ci + 1))[ci]? =
      some (processObjectLibs tC
        ((objectLibIndices ts).filterMap (fun k =>
          (((objectLibsPassAux (objectLibIndices ts) ts ci).set ci
            { tC with generated := tC.generated.filter (fun y => !strEndsWith y ".o") })[k]?).map
            (fun tk => (k, tk))))) := by
    rw [objectLibsPassAux_succ]
    unfold objectLibsPassStep
    simp only [hmidci]
    exact List.getElem?_set_self (by rw [hmidlen]; exact hciLt)
  set pairs := (objectLibIndices ts).filterMap (fun k =>
    (((objectLibsPassAux (objectLibIndices ts) ts ci).set ci
      { tC with generated := tC.generated.filter (fun y => !strEndsWith y ".o") })[k]?).map
      (fun tk => (k, tk))) with hpairs
  refine ⟨processObjectLibs tC pairs, ?_, ?_, ?_⟩
  · show (processObjectLibsPass ts)[ci]? = _
    unfold processObjectLibsPass
    rw [objectLibsPassAux_get_stable _ ts ci ts.length hciLt]
    exact hstep
  · -- the edge is recorded
    have hpmem : (oi, tO') ∈ pairs := by
      rw [hpairs]
      refine List.mem_filterMap.mpr ⟨oi, ?_, ?_⟩
      · unfold objectLibIndices
        refine List.mem_filter.mpr ⟨List.mem_range.mpr hoiLt, ?_⟩
        simp [List.getD_eq_getElem?_getD, hoi, htype]
      · rw [List.getElem?_set_ne (fun hcoi => hne hcoi.symm), hmo]
        rfl
    have hcond : (((tO'.sources ++ tO'.generated).map
        (fun y => strBasename (y ++ ".o"))).any (fun j =>
          ((tC.generated.filter (fun z => strEndsWith z ".o")).map
            strBasename).contains j)) = true := by
      refine List.any_eq_true.mpr ⟨strBasename (x ++ ".o"), ?_, ?_⟩
      · exact List.mem_map.mpr ⟨x, List.mem_append_left _ (hsrc ▸ hx), rfl⟩
      · rw [hbase]
        have hmem : "helper.o" ∈ (tC.generated.filter
            (fun z => strEndsWith z ".o")).map strBasename := by
          refine List.mem_map.mpr ⟨"helper.o", ?_, by decide⟩
          exact List.mem_filter.mpr ⟨hgen, by decide⟩
        exact List.elem_iff.mpr hmem
    show oi ∈ (processObjectLibs tC pairs).objectLibs
    unfold processObjectLibs
    refine List.mem_append_right _ ?_
    exact List.mem_map.mpr ⟨(oi, tO'),
      List.mem_filter.mpr ⟨hpmem, hcond⟩, rfl⟩
  · -- helper.o is gone
    intro hcontra
    have hends := (List.mem_filter.mp hcontra).2
    simp at hends
    exact absurd hends (by decide)

theorem object_lib_edge_inference_witness :
    ∃ tC', (processObjectLibsPass
      [{ name := "obj", fullName := "obj", type := "OBJECT_LIBRARY",
         install := false, installDir := "", linkLibraries := [],
         linkFlags := [], languages := [], sources := ["helper"],
         generated := [], includes := [], linkWith := [], objectLibs := [],
         compileOpts := [], pie := false, overrideOptions := [] },
       { name := "consumer", fullName := "consumer", type := "EXECUTABLE",
         install := false, installDir := "", linkLibraries := [],
         linkFlags := [], languages := [], sources := [],
         generated := ["helper.o"], includes := [], linkWith := [],
         objectLibs := [], compileOpts := [], pie := false,
         overrideOptions := [] }])[1]? = some tC' ∧
      0 ∈ tC'.objectLibs ∧ "helper.o" ∉ tC'.generated :=
  object_lib_edge_inference _ 0 1 _ _ "helper" (by decide) rfl rfl rfl
    (by decide) (by decide) (by decide)

/-- C5 counterexample: an OBJECT_LIBRARY sibling whose *generated* list
contains `helper.o` (as the claim's scenario states) does **not** match a
consumer with generated entry `helper.o`: the computed object names append a
further `.o` (here `helper.o.o`), so the consumer gains no `objectLibraries`
edge — yet `helper.o` is still removed from its generated sources. -/
theorem object_lib_generated_helper_no_edge :
    ((processObjectLibsPass
      [{ name := "obj", fullName := "obj", type := "OBJECT_LIBRARY",
         install := false, installDir := "", linkLibraries := [],
         linkFlags := [], languages := [], sources := [],
         generated := ["helper.o"], includes := [], linkWith := [],
         objectLibs := [], compileOpts := [], pie := false,
         overrideOptions := [] },
       { name := "consumer", fullName := "consumer", type := "EXECUTABLE",
         install := false, installDir := "", linkLibraries := [],
         linkFlags := [], languages := [], sources := [],
         generated := ["helper.o"], includes := [], linkWith := [],
         objectLibs := [], compileOpts := [], pie := false,
         overrideOptions := [] }])[1]?.map
      (fun t => (t.objectLibs, t.generated))) = some ([], []) := by
  rfl

/-! ## Statement synthesizer lemmas -/

theorem lookupA_cons {α : Type} (k n : String) (v : α)
    (ps : List (String × α)) :
    lookupA ((k, v) :: ps) n = if k = n then some v else lookupA ps n := rfl

theorem lookupA_cons_isSome {α : Type} (k n : String) (v : α)
    (ps : List (String × α)) (h : (lookupA ps n).isSome = true) :
    (lookupA ((k, v) :: ps) n).isSome = true := by
  rw [lookupA_cons]
  by_cases hk : k = n <;> simp [hk, h]

theorem blockFor_filter_self (t : ConverterTarget) (i : Nat) :
    (blockFor t i).filter (ownerIs i) = blockFor t i := by
  simp [blockFor, ownerIs, stmtOwner]

theorem blockFor_filter_ne (t : ConverterTarget) (i j : Nat) (h : j ≠ i) :
    (blockFor t i).filter (ownerIs j) = [] := by
  simp [blockFor, ownerIs, stmtOwner, Ne.symm h]

theorem name_inj (ts : List ConverterTarget)
    (hnodup : (ts.map ConverterTarget.name).Nodup) (i j : Nat)
    (hi : i < ts.length) (hj : j < ts.length)
    (h : ts[i].name = ts[j].name) : i = j := by
  have hi' : i < (ts.map ConverterTarget.name).length := by simpa using hi
  have hj' : j < (ts.map ConverterTarget.name).length := by simpa using hj
  have hmap : (ts.map ConverterTarget.name)[i] =
      (ts.map ConverterTarget.name)[j] := by
    simpa using h
  exact (List.Nodup.getElem_inj_iff hnodup).mp hmap

/-- The dependency-loop invariant lemma, assuming the corresponding
`processTarget` lemma at the same fuel (`hP`). -/
theorem processDeps_ok_inv (ts : List ConverterTarget) (rank : Nat → Nat)
    (f : Nat)
    (hP : ∀ idx st st' tgt, ts[idx]? = some tgt →
      lookupA st.processed tgt.name = none →
      SynInv ts st → OrdInv ts st →
      processTarget ts f idx st = Except.ok st' →
      SynInv ts st' ∧ OrdInv ts st' ∧ (∃ d, st'.lines = st.lines ++ d) ∧
      ProcMono st st' ∧ (lookupA st'.processed tgt.name).isSome = true ∧
      NewNames ts rank (rank idx) st st') :
    ∀ ds st st', SynInv ts st → OrdInv ts st →
      processDeps ts (processTarget ts f) ds st = Except.ok st' →
      SynInv ts st' ∧ OrdInv ts st' ∧ (∃ d, st'.lines = st.lines ++ d) ∧
      ProcMono st st' ∧
      (∀ d ∈ ds, ∃ td, ts[d]? = some td ∧
        (lookupA st'.processed td.name).isSome = true) ∧
      (∀ n, (lookupA st'.processed n).isSome = true →
        (lookupA st.processed n).isSome = true ∨
        ∃ j, ∃ hj : j < ts.length, ts[j].name = n ∧
          ∃ d ∈ ds, rank j ≤ rank d) := by
  intro ds
  induction ds with
  | nil =>
    intro st st' hS hO hok
    simp only [processDeps] at hok
    cases hok
    exact ⟨hS, hO, ⟨[], by simp⟩, fun n h => h, by simp, fun n h => Or.inl h⟩
  | cons d ds ih =>
    intro st st' hS hO hok
    simp only [processDeps] at hok
    cases hd : ts[d]? with
    | none => simp only [hd] at hok; simp at hok
    | some dt =>
      simp only [hd] at hok
      by_cases hmem : (lookupA st.processed dt.name).isSome = true
      · rw [if_pos hmem] at hok
        obtain ⟨S2, O2, E2, M2, D2, N2⟩ := ih st st' hS hO hok
        refine ⟨S2, O2, E2, M2, ?_, ?_⟩
        · intro d' hd'
          rcases List.mem_cons.mp hd' with rfl | hd''
          · exact ⟨dt, hd, M2 _ hmem⟩
          · exact D2 d' hd''
        · intro n hn
          rcases N2 n hn with h | ⟨j, hj, hjn, d', hd', hle⟩
          · exact Or.inl h
          · exact Or.inr ⟨j, hj, hjn, d', List.mem_cons_of_mem d hd', hle⟩
      · rw [if_neg hmem] at hok
        have hnone : lookupA st.processed dt.name = none :=
          Option.not_isSome_iff_eq_none.mp (by simpa using hmem)
        cases hpt : processTarget ts f d st with
        | error e => simp only [hpt] at hok; simp at hok
        | ok stt =>
          simp only [hpt] at hok
          obtain ⟨S1, O1, E1, M1, L1, N1⟩ := hP d st stt dt hd hnone hS hO hpt
          obtain ⟨S2, O2, E2, M2, D2, N2⟩ := ih stt st' S1 O1 hok
          refine ⟨S2, O2, ?_, fun n h => M2 n (M1 n h), ?_, ?_⟩
          · obtain ⟨d1, hd1⟩ := E1
            obtain ⟨d2, hd2⟩ := E2
            exact ⟨d1 ++ d2, by rw [hd2, hd1, List.append_assoc]⟩
          · intro d' hd'
            rcases List.mem_cons.mp hd' with rfl | hd''
            · exact ⟨dt, hd, M2 _ L1⟩
            · exact D2 d' hd''
          · intro n hn
            rcases N2 n hn with h | ⟨j, hj, hjn, d', hd', hle⟩
            · rcases N1 n h with h' | ⟨j, hj, hjn, hle⟩
              · exact Or.inl h'
              · exact Or.inr ⟨j, hj, hjn, d, List.mem_cons_self d ds, hle⟩
            · exact Or.inr ⟨j, hj, hjn, d', List.mem_cons_of_mem d hd', hle⟩

/-- The `process_target` invariant lemma: a successful call on a target whose
name is unprocessed emits statements append-only, preserves the block and
ordering invariants, marks the target's name processed, and only processes
names of targets whose rank does not exceed the callee's. -/
theorem processTarget_ok_inv (ts : List ConverterTarget) (rank : Nat → Nat)
    (hnodup : (ts.map ConverterTarget.name).Nodup) (hrank : RankOk ts rank) :
    ∀ f idx st st' tgt, ts[idx]? = some tgt →
      lookupA st.processed tgt.name = none →
      SynInv ts st → OrdInv ts st →
      processTarget ts f idx st = Except.ok st' →
      SynInv ts st' ∧ OrdInv ts st' ∧ (∃ d, st'.lines = st.lines ++ d) ∧
      ProcMono st st' ∧ (lookupA st'.processed tgt.name).isSome = true ∧
      NewNames ts rank (rank idx) st st' := by
  intro f
  induction f with
  | zero =>
    intro idx st st' tgt hidx hnone hS hO hok
    simp [processTarget] at hok
  | succ f ih =>
    intro idx st st' tgt hidx hnone hS hO hok
    obtain ⟨hidxLt, hidxEq⟩ := List.getElem?_eq_some_iff.mp hidx
    simp only [processTarget, hidx] at hok
    cases h1 : processDeps ts (processTarget ts f) tgt.linkWith st with
    | error e => simp only [h1] at hok; simp at hok
    | ok st1 =>
      simp only [h1] at hok
      cases h2 : processDeps ts (processTarget ts f) tgt.objectLibs st1 with
      | error e => simp only [h2] at hok; simp at hok
      | ok st2 =>
        simp only [h2] at hok
        cases h3 : mesonFunc tgt.type with
        | none => simp only [h3] at hok; simp at hok
        | some fn =>
          simp only [h3] at hok
          have hst' : st' =
              ⟨(tgt.name, sanitizeName tgt.name) :: st2.processed,
               st2.lines ++ blockFor tgt idx⟩ := by
            cases hok; rfl
          subst hst'
          obtain ⟨S1, O1, E1, M1, D1, N1⟩ :=
            processDeps_ok_inv ts rank f ih tgt.linkWith st st1 hS hO h1
          obtain ⟨S2, O2, E2, M2, D2, N2⟩ :=
            processDeps_ok_inv ts rank f ih tgt.objectLibs st1 st2 S1 O1 h2
          have hname : ts[idx].name = tgt.name := by rw [hidxEq]
          have hrefute : ∀ d, d ∈ depsOf tgt →
              ∀ j, ∀ hj : j < ts.length, ts[j].name = tgt.name →
              rank j ≤ rank d → False := by
            intro d hd j hj hjn hle
            have hjidx : j = idx :=
              name_inj ts hnodup j idx hj hidxLt (by rw [hjn, hname])
            have hlt := hrank idx hidxLt d (by rw [hidxEq]; exact hd)
            rw [hjidx] at hle
            omega
          have hnotmid : lookupA st2.processed tgt.name = none := by
            cases hq : lookupA st2.processed tgt.name with
            | none => rfl
            | some v =>
              exfalso
              have hq' : (lookupA st2.processed tgt.name).isSome = true := by
                simp [hq]
              rcases N2 tgt.name hq' with h | ⟨j, hj, hjn, d, hd, hle⟩
              · rcases N1 tgt.name h with h' | ⟨j, hj, hjn, d, hd, hle⟩
                · rw [hnone] at h'; simp at h'
                · exact hrefute d (List.mem_append_left _ hd) j hj hjn hle
              · exact hrefute d (List.mem_append_right _ hd) j hj hjn hle
          refine ⟨?_, ?_, ?_, ?_, ?_, ?_⟩
          · -- SynInv
            intro i hi
            show (st2.lines ++ blockFor tgt idx).filter (ownerIs i) = _
            rw [List.filter_append]
            by_cases hieq : i = idx
            · subst hieq
              have hold := S2 i hi
              rw [hname, hnotmid] at hold
              simp only [Option.isSome_none, Bool.false_eq_true,
                if_false] at hold
              rw [hold, blockFor_filter_self]
              simp [lookupA_cons, hname, hidxEq]
            · have hnamene : tgt.name ≠ ts[i].name := by
                intro hcontra
                exact hieq (name_inj ts hnodup i idx hi hidxLt
                  (by rw [← hcontra, hname]))
              rw [blockFor_filter_ne tgt idx i hieq]
              show st2.lines.filter (ownerIs i) ++ [] = _
              rw [List.append_nil]
              have hlook : lookupA ((tgt.name, sanitizeName tgt.name) ::
                  st2.processed) ts[i].name =
                  lookupA st2.processed ts[i].name := by
                rw [lookupA_cons, if_neg hnamene]
              show _ = if (lookupA ((tgt.name, sanitizeName tgt.name) ::
                  st2.processed) ts[i].name).isSome = true then
                  blockFor ts[i] i else []
              rw [hlook]
              exact S2 i hi
          · -- OrdInv
            intro a ha hproc b hb hbmem
            by_cases haeq : a = idx
            · subst haeq
              have hbmem' : b ∈ depsOf tgt := by
                rw [← hidxEq]; exact hbmem
              have hbSome : (lookupA st2.processed ts[b].name).isSome =
                  true := by
                rcases List.mem_append.mp hbmem' with hbl | hbo
                · obtain ⟨td, htd, hsome⟩ := D1 b hbl
                  obtain ⟨_, hbe⟩ := List.getElem?_eq_some_iff.mp htd
                  rw [hbe]
                  exact M2 _ hsome
                · obtain ⟨td, htd, hsome⟩ := D2 b hbo
                  obtain ⟨_, hbe⟩ := List.getElem?_eq_some_iff.mp htd
                  rw [hbe]
                  exact hsome
              have hbne : b ≠ a := by
                intro hcontra
                subst hcontra
                rw [hname, hnotmid] at hbSome
                simp at hbSome
              refine ⟨st2.lines ++
                [Stmt.node StmtKind.incDirs a (sanitizeName tgt.name ++ "_inc"),
                 Stmt.node StmtKind.srcList a (sanitizeName tgt.name ++ "_src")],
                [Stmt.node StmtKind.depDecl a (sanitizeName tgt.name ++ "_dep")],
                ?_, ?_⟩
              · show st2.lines ++ blockFor tgt a = _
                simp [blockFor, hname]
              · rw [List.filter_append]
                have hfb : st2.lines.filter (ownerIs b) = blockFor ts[b] b := by
                  have := S2 b hb
                  rw [if_pos hbSome] at this
                  exact this
                rw [hfb]
                have hrest : List.filter (ownerIs b)
                    [Stmt.node StmtKind.incDirs a (sanitizeName tgt.name ++ "_inc"),
                     Stmt.node StmtKind.srcList a (sanitizeName tgt.name ++ "_src")] =
                    [] := by
                  simp [ownerIs, stmtOwner, Ne.symm hbne]
                rw [hrest, List.append_nil]
            · have hnamene : tgt.name ≠ ts[a].name := by
                intro hcontra
                exact haeq (name_inj ts hnodup a idx ha hidxLt
                  (by rw [← hcontra, hname]))
              have hproc2 : (lookupA st2.processed ts[a].name).isSome =
                  true := by
                have := hproc
                rw [show lookupA ((tgt.name, sanitizeName tgt.name) ::
                    st2.processed) ts[a].name =
                    lookupA st2.processed ts[a].name from by
                  rw [lookupA_cons, if_neg hnamene]] at this
                exact this
              obtain ⟨pre, suf, hsplit, hfil⟩ := O2 a ha hproc2 b hb hbmem
              refine ⟨pre, suf ++ blockFor tgt idx, ?_, hfil⟩
              show st2.lines ++ blockFor tgt idx = _
              rw [hsplit]
              simp
          · -- append-only
            obtain ⟨d1, hd1⟩ := E1
            obtain ⟨d2, hd2⟩ := E2
            exact ⟨d1 ++ d2 ++ blockFor tgt idx, by
              show st2.lines ++ blockFor tgt idx = _
              rw [hd2, hd1]
              simp⟩
          · -- monotone
            intro n hn
            exact lookupA_cons_isSome _ _ _ _ (M2 n (M1 n hn))
          · -- own name processed
            simp [lookupA_cons]
          · -- new names bounded by rank idx
            intro n hn
            show (lookupA st.processed n).isSome = true ∨ _
            rw [lookupA_cons] at hn
            by_cases heq : tgt.name = n
            · rw [if_pos heq] at hn
              exact Or.inr ⟨idx, hidxLt, by rw [hname, heq], Nat.le_refl _⟩
            · rw [if_neg heq] at hn
              rcases N2 n hn with h | ⟨j, hj, hjn, d, hd, hle⟩
              · rcases N1 n h with h' | ⟨j, hj, hjn, d, hd, hle⟩
                · exact Or.inl h'
                · refine Or.inr ⟨j, hj, hjn, ?_⟩
                  have := hrank idx hidxLt d
                    (by rw [hidxEq]; exact List.mem_append_left _ hd)
                  omega
              · refine Or.inr ⟨j, hj, hjn, ?_⟩
                have := hrank idx hidxLt d
                  (by rw [hidxEq]; exact List.mem_append_right _ hd)
                omega

theorem synthAll_ok_inv (ts : List ConverterTarget) (rank : Nat → Nat)
    (hnodup : (ts.map ConverterTarget.name).Nodup) (hrank : RankOk ts rank) :
    ∀ idxs st st', SynInv ts st → OrdInv ts st →
      synthAll ts idxs st = Except.ok st' →
      SynInv ts st' ∧ OrdInv ts st' ∧ ProcMono st st' ∧
      (∀ i ∈ idxs, ∃ ti, ts[i]? = some ti ∧
        (lookupA st'.processed ti.name).isSome = true) := by
  intro idxs
  induction idxs with
  | nil =>
    intro st st' hS hO hok
    simp only [synthAll] at hok
    cases hok
    exact ⟨hS, hO, fun n h => h, by simp⟩
  | cons i rest ih =>
    intro st st' hS hO hok
    simp only [synthAll] at hok
    cases hi : ts[i]? with
    | none => simp only [hi] at hok; simp at hok
    | some ti =>
      simp only [hi] at hok
      by_cases hmem : (lookupA st.processed ti.name).isSome = true
      · rw [if_pos hmem] at hok
        obtain ⟨S2, O2, M2, D2⟩ := ih st st' hS hO hok
        refine ⟨S2, O2, M2, ?_⟩
        intro i' hi'
        rcases List.mem_cons.mp hi' with rfl | h
        · exact ⟨ti, hi, M2 _ hmem⟩
        · exact D2 i' h
      · rw [if_neg hmem] at hok
        have hnone : lookupA st.processed ti.name = none :=
          Option.not_isSome_iff_eq_none.mp (by simpa using hmem)
        cases hpt : processTarget ts (ts.length + 1) i st with
        | error e => simp only [hpt] at hok; simp at hok
        | ok stt =>
          simp only [hpt] at hok
          obtain ⟨S1, O1, E1, M1, L1, N1⟩ :=
            processTarget_ok_inv ts rank hnodup hrank (ts.length + 1) i st stt
              ti hi hnone hS hO hpt
          obtain ⟨S2, O2, M2, D2⟩ := ih stt st' S1 O1 hok
          refine ⟨S2, O2, fun n h => M2 n (M1 n h), ?_⟩
          intro i' hi'
          rcases List.mem_cons.mp hi' with rfl | h
          · exact ⟨ti, hi, M2 _ L1⟩
          · exact D2 i' h

/-- A successful `pretend_to_be_meson` run satisfies the block and ordering
invariants, and has processed every target's name. -/
theorem pretend_ok_inv (ts : List ConverterTarget) (projectName : String)
    (langs : List String) (st' : SynState)
    (hnodup : (ts.map ConverterTarget.name).Nodup)
    (rank : Nat → Nat) (hrank : RankOk ts rank)
    (hok : pretendToBeMeson ts projectName langs = Except.ok st') :
    SynInv ts st' ∧ OrdInv ts st' ∧
    (∀ i, (hi : i < ts.length) →
      (lookupA st'.processed ts[i].name).isSome = true) := by
  unfold pretendToBeMeson at hok
  by_cases hpn : projectName = ""
  · rw [if_pos hpn] at hok; simp at hok
  · rw [if_neg hpn] at hok
    have hS0 : SynInv ts ⟨[], [Stmt.project projectName langs]⟩ := by
      intro i hi
      show List.filter (ownerIs i) [Stmt.project projectName langs] = _
      simp [ownerIs, stmtOwner, lookupA]
    have hO0 : OrdInv ts ⟨[], [Stmt.project projectName langs]⟩ := by
      intro a ha hproc
      simp [lookupA] at hproc
    obtain ⟨S, O, M, D⟩ :=
      synthAll_ok_inv ts rank hnodup hrank _ _ _ hS0 hO0 hok
    refine ⟨S, O, ?_⟩
    intro i hi
    obtain ⟨ti, hti, hsome⟩ := D i (List.mem_range.mpr hi)
    obtain ⟨_, hte⟩ := List.getElem?_eq_some_iff.mp hti
    rw [hte]
    exact hsome

/-! ## C4: memoization of `process_target` -/

/-- C4 (amended): `process_target` is memoized by target *name* (Python keys
`processed` by `tgt.name`, not `full_name`).  When all target names are
pairwise distinct (and the dependency graph is acyclic, witnessed by `rank`),
every successful synthesis emits each target exactly once: the statements
owned by target `i` are exactly its four-statement block.  (With two distinct
targets sharing a name, the later one is skipped — see the
counterexample.) -/
theorem synth_emits_each_target_once (ts : List ConverterTarget)
    (projectName : String) (langs : List String) (st' : SynState)
    (hnodup : (ts.map ConverterTarget.name).Nodup)
    (rank : Nat → Nat) (hrank : RankOk ts rank)
    (hok : pretendToBeMeson ts projectName langs = Except.ok st') :
    ∀ i, (hi : i < ts.length) →
      st'.lines.filter (ownerIs i) = blockFor ts[i] i := by
  obtain ⟨S, O, P⟩ :=
    pretend_ok_inv ts projectName langs st' hnodup rank hrank hok
  intro i hi
  have h := S i hi
  rw [if_pos (P i hi)] at h
  exact h

theorem synth_emits_each_target_once_witness :
    (SynState.mk [("app", "app"), ("lib", "lib")]
      [Stmt.project "p" [],
       Stmt.node StmtKind.incDirs 1 "lib_inc",
       Stmt.node StmtKind.srcList 1 "lib_src",
       Stmt.node StmtKind.tgtDecl 1 "lib",
       Stmt.node StmtKind.depDecl 1 "lib_dep",
       Stmt.node StmtKind.incDirs 0 "app_inc",
       Stmt.node StmtKind.srcList 0 "app_src",
       Stmt.node StmtKind.tgtDecl 0 "app",
       Stmt.node StmtKind.depDecl 0 "app_dep"]).lines.filter (ownerIs 0) =
      blockFor (mkSimpleTarget "app" "app" "EXECUTABLE" [1] []) 0 :=
  synth_emits_each_target_once
    [mkSimpleTarget "app" "app" "EXECUTABLE" [1] [],
     mkSimpleTarget "lib" "lib" "STATIC_LIBRARY" [] []] "p" [] _
    (by decide) (fun i => 1 - i) (by decide) rfl 0 (by decide)

/-- C4 counterexample: two distinct targets share the name `x` but have the
distinct full names `x1` and `x2`.  Memoization keys on the *name*, so the
second target is never emitted (zero statements with owner `1`), refuting
"memoized by target full-name … each target is emitted exactly once". -/
theorem synth_shared_name_second_target_not_emitted :
    ((pretendToBeMeson
      [mkSimpleTarget "x" "x1" "EXECUTABLE" [] [],
       mkSimpleTarget "x" "x2" "EXECUTABLE" [] []] "p" []).toOption.map
      (fun st => st.lines.filter (ownerIs 1))) = some [] ∧
    (mkSimpleTarget "x" "x1" "EXECUTABLE" [] []).fullName ≠
      (mkSimpleTarget "x" "x2" "EXECUTABLE" [] []).fullName ∧
    (mkSimpleTarget "x" "x1" "EXECUTABLE" [] []).name =
      (mkSimpleTarget "x" "x2" "EXECUTABLE" [] []).name :=
  ⟨rfl, by decide, rfl⟩

/-! ## C3: dependency ordering of the synthesized statements -/

/-- C3 (amended): provided all target names are pairwise distinct and the
dependency graph is acyclic (witnessed by `rank`), every successful synthesis
places, for each `linkWith`/`objectLibs` edge `a → b`, all four of `b`'s
statements strictly before `a`'s target-declaration statement: `b`'s full
block lies in the prefix before the (unique) target declaration of `a`, and
no owner-`b` statement occurs at or after it.  (Without distinct names the
dependency may never be emitted at all — see the counterexample.) -/
theorem synth_dependency_before_dependent (ts : List ConverterTarget)
    (projectName : String) (langs : List String) (st' : SynState) (a b : Nat)
    (hnodup : (ts.map ConverterTarget.name).Nodup)
    (rank : Nat → Nat) (hrank : RankOk ts rank)
    (hok : pretendToBeMeson ts projectName langs = Except.ok st')
    (ha : a < ts.length) (hb : b < ts.length)
    (hedge : b ∈ depsOf ts[a]) :
    ∃ pre suf,
      st'.lines = pre ++
        Stmt.node StmtKind.tgtDecl a (sanitizeName ts[a].name) :: suf ∧
      pre.filter (ownerIs b) = blockFor ts[b] b ∧
      (Stmt.node StmtKind.tgtDecl a (sanitizeName ts[a].name) :: suf).filter
        (ownerIs b) = [] ∧
      st'.lines.filter (ownerIs b) = blockFor ts[b] b := by
  obtain ⟨S, O, P⟩ :=
    pretend_ok_inv ts projectName langs st' hnodup rank hrank hok
  obtain ⟨pre, suf, hsplit, hfil⟩ := O a ha (P a ha) b hb hedge
  have htot : st'.lines.filter (ownerIs b) = blockFor ts[b] b := by
    have h := S b hb
    rw [if_pos (P b hb)] at h
    exact h
  refine ⟨pre, suf, hsplit, hfil, ?_, htot⟩
  have hsplitf := htot
  rw [hsplit, List.filter_append, hfil] at hsplitf
  have hz : blockFor ts[b] b ++
      (Stmt.node StmtKind.tgtDecl a (sanitizeName ts[a].name) :: suf).filter
        (ownerIs b) = blockFor ts[b] b ++ [] := by
    rw [hsplitf]
    simp
  exact List.append_cancel_left hz

theorem synth_dependency_before_dependent_witness :
    ∃ pre suf,
      (SynState.mk [("app", "app"), ("lib", "lib")]
        [Stmt.project "p" [],
         Stmt.node StmtKind.incDirs 1 "lib_inc",
         Stmt.node StmtKind.srcList 1 "lib_src",
         Stmt.node StmtKind.tgtDecl 1 "lib",
         Stmt.node StmtKind.depDecl 1 "lib_dep",
         Stmt.node StmtKind.incDirs 0 "app_inc",
         Stmt.node StmtKind.srcList 0 "app_src",
         Stmt.node StmtKind.tgtDecl 0 "app",
         Stmt.node StmtKind.depDecl 0 "app_dep"]).lines = pre ++
        Stmt.node StmtKind.tgtDecl 0 (sanitizeName "app") :: suf ∧
      pre.filter (ownerIs 1) =
        blockFor (mkSimpleTarget "lib" "lib" "STATIC_LIBRARY" [] []) 1 ∧
      (Stmt.node StmtKind.tgtDecl 0 (sanitizeName "app") :: suf).filter
        (ownerIs 1) = [] ∧
      (SynState.mk [("app", "app"), ("lib", "lib")]
        [Stmt.project "p" [],
         Stmt.node StmtKind.incDirs 1 "lib_inc",
         Stmt.node StmtKind.srcList 1 "lib_src",
         Stmt.node StmtKind.tgtDecl 1 "lib",
         Stmt.node StmtKind.depDecl 1 "lib_dep",
         Stmt.node StmtKind.incDirs 0 "app_inc",
         Stmt.node StmtKind.srcList 0 "app_src",
         Stmt.node StmtKind.tgtDecl 0 "app",
         Stmt.node StmtKind.depDecl 0 "app_dep"]).lines.filter (ownerIs 1) =
        blockFor (mkSimpleTarget "lib" "lib" "STATIC_LIBRARY" [] []) 1 :=
  synth_dependency_before_dependent
    [mkSimpleTarget "app" "app" "EXECUTABLE" [1] [],
     mkSimpleTarget "lib" "lib" "STATIC_LIBRARY" [] []] "p" [] _ 0 1
    (by decide) (fun i => 1 - i) (by decide) rfl (by decide) (by decide)
    (by decide)

/-- C3 counterexample: target `1` (name `a`) has a `linkWith` edge to target
`2`, but target `2` shares its name `x` with the already-processed target
`0`; the synthesis succeeds while emitting *no* statements for target `2`,
even though target `1`'s target-declaration is present — so "all four of B's
statements strictly before A's target declaration" fails as stated. -/
theorem synth_edge_without_dependency_statements :
    2 ∈ (List.getD
      [mkSimpleTarget "x" "x1" "EXECUTABLE" [] [],
       mkSimpleTarget "a" "a" "EXECUTABLE" [2] [],
       mkSimpleTarget "x" "x2" "STATIC_LIBRARY" [] []] 1 default).linkWith ∧
    ((pretendToBeMeson
      [mkSimpleTarget "x" "x1" "EXECUTABLE" [] [],
       mkSimpleTarget "a" "a" "EXECUTABLE" [2] [],
       mkSimpleTarget "x" "x2" "STATIC_LIBRARY" [] []] "p" []).toOption.map
      (fun st => (st.lines.filter (ownerIs 2),
                  st.lines.filter (isTgtDeclOf 1)))) =
      some ([], [Stmt.node StmtKind.tgtDecl 1 "a"]) :=
  ⟨by decide, rfl⟩

/-! ## C1: `readMessageRaw` on truncated streams -/

theorem readLoop_skip_pre (pre : List (List Char)) (ls : List (List Char))
    (raw : List (List Char))
    (hpre : ∀ l ∈ pre, stripChars l ≠ beginSentinelChars) :
    readLoop (pre ++ ls) false raw = readLoop ls false raw := by
  induction pre with
  | nil => rfl
  | cons p ps ih =>
    have hp : stripChars p ≠ beginSentinelChars :=
      hpre p (List.mem_cons_self p ps)
    show readLoop ((p :: ps) ++ ls) false raw = _
    simp only [List.cons_append, readLoop, if_neg hp, if_false]
    exact ih (fun l hl => hpre l (List.mem_cons_of_mem p hl))

theorem readLoop_consume_all (ls : List (List Char)) :
    ∀ raw, (∀ l ∈ ls, stripChars l ≠ endSentinelChars) →
      readLoop ls true raw = raw ++ ls.map stripChars := by
  induction ls with
  | nil => intro raw _; simp [readLoop]
  | cons p ps ih =>
    intro raw hls
    have hp : stripChars p ≠ endSentinelChars := hls p (List.mem_cons_self p ps)
    simp only [readLoop, if_neg hp, if_true]
    rw [ih (raw ++ [stripChars p]) (fun l hl => hls l (List.mem_cons_of_mem p hl))]
    simp

/-- C1 (amended): on a stream whose begin sentinel is never followed by an
end sentinel before EOF, `readMessageRaw` returns a parsed JSON value
whenever the lines accumulated after the begin sentinel are non-empty and
parse as a JSON document — only an empty accumulation (transport error) or
unparsable text (JSON decode error) raises. -/
theorem readMessageRaw_truncated_stream (pre : List (List Char))
    (b : List Char) (post : List (List Char)) (v : Json)
    (hpre : ∀ l ∈ pre, stripChars l ≠ beginSentinelChars)
    (hb : stripChars b = beginSentinelChars)
    (hpost : ∀ l ∈ post, stripChars l ≠ endSentinelChars) :
    readMessageRaw (pre ++ b :: post) = Except.ok v ↔
      (post ≠ [] ∧ jsonLoads (joinLines (post.map stripChars)) = some v) := by
  have h1 : readLoop (pre ++ b :: post) false [] = post.map stripChars := by
    rw [readLoop_skip_pre pre _ [] hpre]
    show readLoop (b :: post) false [] = _
    simp only [readLoop, if_pos hb]
    exact readLoop_consume_all post [] hpost
  unfold readMessageRaw
  rw [h1]
  cases post with
  | nil => simp
  | cons p ps =>
    simp only [List.map_cons, List.isEmpty_cons, if_false, ne_eq,
      reduceCtorEq, not_false_iff, true_and, Bool.false_eq_true]
    cases hj : jsonLoads (joinLines (stripChars p :: ps.map stripChars)) with
    | none => simp
    | some w => simp

theorem readMessageRaw_truncated_stream_witness :
    readMessageRaw ([] ++ beginSentinelChars :: [['4', '2']]) =
        Except.ok (Json.num 42) ↔
      ((([['4', '2']] : List (List Char))) ≠ [] ∧
        jsonLoads (joinLines (([['4', '2']] :
          List (List Char)).map stripChars)) = some (Json.num 42)) :=
  readMessageRaw_truncated_stream [] beginSentinelChars [['4', '2']]
    (Json.num 42) (by simp) (by decide) (by decide)

/-- C1 counterexample: a stream with a begin sentinel and no end sentinel
before EOF on which `readMessageRaw` *returns* a parsed (partial) JSON value
instead of raising: the accumulated line `\x7b\x7d` parses as the empty
object, and the `if rawData:` check hands it to `json.loads`, whose value is
returned. -/
theorem readMessageRaw_truncated_returns_value :
    readMessageRaw [beginSentinelChars, ['\x7b', '\x7d']] =
      Except.ok (Json.obj []) := rfl

/-! ## Codec lemmas: decimal digits -/

theorem natCharsAux_irrel : ∀ n f g, n ≤ f → n ≤ g →
    natCharsAux f n = natCharsAux g n := by
  intro n
  induction n using Nat.strong_induction_on with
  | _ n ih =>
    intro f g hf hg
    match f, g with
    | 0, 0 => rfl
    | 0, k + 1 =>
      have hn : n = 0 := Nat.le_zero.mp hf
      subst hn
      simp [natCharsAux]
    | k + 1, 0 =>
      have hn : n = 0 := Nat.le_zero.mp hg
      subst hn
      simp [natCharsAux]
    | k + 1, k' + 1 =>
      simp only [natCharsAux]
      by_cases h10 : n < 10
      · simp [h10]
      · simp only [h10, if_false]
        have hrec : n / 10 < n := Nat.div_lt_self (by omega) (by omega)
        rw [ih (n / 10) hrec k k' (by omega) (by omega)]

theorem natChars_lt10 (n : Nat) (h : n < 10) :
    natChars n = [Char.ofNat (48 + n)] := by
  match n, h with
  | 0, _ => rfl
  | (k + 1), h => simp [natChars, natCharsAux, h]

theorem natChars_ge10 (n : Nat) (h : 10 ≤ n) :
    natChars n = natChars (n / 10) ++ [Char.ofNat (48 + n % 10)] := by
  obtain ⟨m, rfl⟩ : ∃ m, n = m + 1 := ⟨n - 1, by omega⟩
  show natCharsAux (m + 1) (m + 1) = _
  simp only [natCharsAux, Nat.not_lt.mpr h, if_false]
  rw [natCharsAux_irrel ((m + 1) / 10) m ((m + 1) / 10) (by omega)
    (Nat.le_refl _)]
  rfl

theorem natChars_ne_nil (n : Nat) : natChars n ≠ [] := by
  by_cases h : n < 10
  · rw [natChars_lt10 n h]; simp
  · rw [natChars_ge10 n (by omega)]; simp

theorem digitChar_props : ∀ k, k < 10 →
    (Char.ofNat (48 + k)).toNat = 48 + k ∧
    (Char.ofNat (48 + k)).isDigit = true := by decide

theorem natChars_all_digits (n : Nat) :
    ∀ c ∈ natChars n, c.isDigit = true := by
  induction n using Nat.strong_induction_on with
  | _ n ih =>
    by_cases h : n < 10
    · rw [natChars_lt10 n h]
      intro c hc
      simp at hc
      rw [hc]
      exact (digitChar_props n h).2
    · rw [natChars_ge10 n (by omega)]
      intro c hc
      rcases List.mem_append.mp hc with hc | hc
      · exact ih (n / 10) (Nat.div_lt_self (by omega) (by omega)) c hc
      · simp at hc
        rw [hc]
        exact (digitChar_props (n % 10) (by omega)).2

theorem natChars_head (n : Nat) :
    ∃ k tl, k < 10 ∧ natChars n = Char.ofNat (48 + k) :: tl := by
  induction n using Nat.strong_induction_on with
  | _ n ih =>
    by_cases h : n < 10
    · exact ⟨n, [], h, natChars_lt10 n h⟩
    · obtain ⟨k, tl, hk, heq⟩ := ih (n / 10) (Nat.div_lt_self (by omega) (by omega))
      exact ⟨k, tl ++ [Char.ofNat (48 + n % 10)], hk, by
        rw [natChars_ge10 n (by omega), heq]; rfl⟩

theorem natChars_getLast (n : Nat) :
    ∃ k, k < 10 ∧ (natChars n).getLastD 'x' = Char.ofNat (48 + k) := by
  by_cases h : n < 10
  · rw [natChars_lt10 n h]; exact ⟨n, h, rfl⟩
  · rw [natChars_ge10 n (by omega)]
    refine ⟨n % 10, by omega, ?_⟩
    simp

/-! ## Codec lemmas: number parsing -/

theorem natChars_foldl (n : Nat) : ∀ a,
    (natChars n).foldl (fun x c => x * 10 + (c.toNat - 48)) a =
      a * 10 ^ (natChars n).length + n := by
  induction n using Nat.strong_induction_on with
  | _ n ih =>
    intro a
    by_cases h : n < 10
    · rw [natChars_lt10 n h]
      simp [List.foldl, (digitChar_props n h).1]
    · rw [natChars_ge10 n (by omega)]
      rw [List.foldl_append]
      rw [ih (n / 10) (Nat.div_lt_self (by omega) (by omega)) a]
      simp [List.foldl, (digitChar_props (n % 10) (by omega)).1]
      rw [Nat.pow_succ, ← Nat.mul_assoc]
      generalize a * 10 ^ (natChars (n / 10)).length = A
      omega

theorem takeWhile_digits_natChars (n : Nat) (rest : List Char)
    (hrest : restDelim rest = true) :
    (natChars n ++ rest).takeWhile Char.isDigit = natChars n := by
  have hall := natChars_all_digits n
  have hstop : rest.takeWhile Char.isDigit = [] := by
    cases rest with
    | nil => rfl
    | cons r rs =>
      simp only [restDelim, Bool.not_eq_true'] at hrest
      have : r.isDigit = false := by
        rcases Bool.or_eq_false_iff.mp hrest with ⟨h1, _⟩
        rcases Bool.or_eq_false_iff.mp h1 with ⟨h2, _⟩
        rcases Bool.or_eq_false_iff.mp h2 with ⟨h3, _⟩
        exact h3
      simp [List.takeWhile, this]
  have : ∀ (l : List Char), (∀ c ∈ l, Char.isDigit c = true) →
      (l ++ rest).takeWhile Char.isDigit = l ++ rest.takeWhile Char.isDigit := by
    intro l
    induction l with
    | nil => intro _; simp
    | cons c cs ihl =>
      intro hl
      simp only [List.cons_append, List.takeWhile]
      rw [hl c (List.mem_cons_self c cs)]
      simp only [List.append_eq]
      rw [ihl (fun x hx => hl x (List.mem_cons_of_mem c hx))]
  rw [this (natChars n) hall, hstop, List.append_nil]

theorem parseNatNum_natChars (n : Nat) (rest : List Char)
    (hrest : restDelim rest = true) :
    parseNatNum (natChars n ++ rest) = some (n, rest) := by
  unfold parseNatNum
  rw [takeWhile_digits_natChars n rest hrest]
  obtain ⟨k, tl, hk, heq⟩ := natChars_head n
  rw [heq]
  simp only []
  rw [← heq]
  rw [natChars_foldl n 0]
  simp only [Nat.zero_mul, Nat.zero_add]
  rw [List.drop_left]

theorem numDelimOk_of_restDelim (rest : List Char)
    (hrest : restDelim rest = true) : numDelimOk rest = true := by
  cases rest with
  | nil => rfl
  | cons r rs =>
    simp only [restDelim, Bool.not_eq_true'] at hrest
    simp only [numDelimOk, Bool.not_eq_true']
    rcases Bool.or_eq_false_iff.mp hrest with ⟨h1, h4⟩
    rcases Bool.or_eq_false_iff.mp h1 with ⟨h2, h3⟩
    rcases Bool.or_eq_false_iff.mp h2 with ⟨h5, h6⟩
    simp [h3, h4, h6]

theorem parseNumber_intChars (i : Int) (rest : List Char)
    (hrest : restDelim rest = true) :
    parseNumber (intChars i ++ rest) = some (Json.num i, rest) := by
  by_cases hneg : i < 0
  · have : intChars i = '-' :: natChars (-i).toNat := by
      simp [intChars, hneg]
    rw [this]
    show parseNumber ('-' :: (natChars (-i).toNat ++ rest)) = _
    simp only [parseNumber, if_pos rfl]
    rw [parseNatNum_natChars _ rest hrest]
    simp only [numDelimOk_of_restDelim rest hrest, if_true]
    have : (((-i).toNat : Int)) = -i := Int.toNat_of_nonneg (by omega)
    have hi : (-((-i).toNat : Int)) = i := by omega
    rw [hi]
  · have : intChars i = natChars i.toNat := by
      simp [intChars, hneg]
    rw [this]
    obtain ⟨k, tl, hk, heq⟩ := natChars_head i.toNat
    have hne : Char.ofNat (48 + k) ≠ '-' := by
      intro hc
      have h1 : (Char.ofNat (48 + k)).toNat = 48 + k := (digitChar_props k hk).1
      rw [hc] at h1
      have h2 : Char.toNat '-' = 45 := by decide
      rw [h2] at h1
      omega
    rw [heq]
    show parseNumber (Char.ofNat (48 + k) :: (tl ++ rest)) = _
    simp only [parseNumber, if_neg hne]
    rw [show Char.ofNat (48 + k) :: (tl ++ rest) =
      (Char.ofNat (48 + k) :: tl) ++ rest from rfl, ← heq]
    rw [parseNatNum_natChars _ rest hrest]
    simp only [numDelimOk_of_restDelim rest hrest, if_true]
    have : ((i.toNat : Int)) = i := Int.toNat_of_nonneg (by omega)
    rw [this]

/-! ## Codec lemmas: string escaping -/

theorem escapeChar_length_pos (c : Char) : 1 ≤ (escapeChar c).length := by
  unfold escapeChar
  split_ifs <;> simp [toHex4]

theorem length_le_escChars (s : List Char) :
    s.length ≤ (escChars s).length := by
  induction s with
  | nil => simp [escChars]
  | cons c cs ih =>
    simp only [escChars, List.length_append, List.length_cons]
    have := escapeChar_length_pos c
    omega

theorem hexVal_hexDigitChar : ∀ k < 16, hexVal (hexDigitChar k) = some k := by
  decide

theorem parseHex4_toHex4 (n : Nat) (h : n < 0x10000) (r : List Char) :
    parseHex4 (toHex4 n ++ r) = some (n, r) := by
  show parseHex4 (hexDigitChar (n / 4096 % 16) :: hexDigitChar (n / 256 % 16) ::
    hexDigitChar (n / 16 % 16) :: hexDigitChar (n % 16) :: r) = some (n, r)
  simp only [parseHex4]
  rw [hexVal_hexDigitChar _ (by omega), hexVal_hexDigitChar _ (by omega),
    hexVal_hexDigitChar _ (by omega), hexVal_hexDigitChar _ (by omega)]
  have : n / 4096 % 16 * 4096 + n / 256 % 16 * 256 + n / 16 % 16 * 16 + n % 16
      = n := by omega
  simp [this]

theorem parseStringRest_step_plain (c : Char) (h1 : c ≠ '\"')
    (h2 : c ≠ '\\') (h3 : ¬ c.toNat < 0x20) (f : Nat) (tail : List Char) :
    parseStringRest (f + 1) (c :: tail) =
      (parseStringRest f tail).map (fun p => (c :: p.1, p.2)) := by
  simp only [parseStringRest, if_neg h1, if_neg h2, if_neg h3]

theorem parseStringRest_step_esc (e c2 : Char) (he : e ≠ 'u')
    (hd : escDecode e = some c2) (f : Nat) (tail : List Char) :
    parseStringRest (f + 1) ('\\' :: e :: tail) =
      (parseStringRest f tail).map (fun p => (c2 :: p.1, p.2)) := by
  simp [parseStringRest, he, hd]

theorem parseStringRest_step_u (h : Nat) (hlt : h < 0x10000)
    (hns : ¬(0xd800 ≤ h ∧ h ≤ 0xdfff)) (f : Nat) (tail : List Char) :
    parseStringRest (f + 1) ('\\' :: 'u' :: (toHex4 h ++ tail)) =
      (parseStringRest f tail).map (fun p => (Char.ofNat h :: p.1, p.2)) := by
  have ha : ¬(0xd800 ≤ h ∧ h ≤ 0xdbff) := by omega
  have hb : ¬(0xdc00 ≤ h ∧ h ≤ 0xdfff) := by omega
  simp [parseStringRest, parseHex4_toHex4 h hlt, ha, hb]

theorem parseStringRest_u_match (f : Nat) (cs2 : List Char) :
    parseStringRest (f + 1) ('\\' :: 'u' :: cs2) =
      match parseHex4 cs2 with
      | none => none
      | some (h, rest) =>
        if 0xd800 ≤ h ∧ h ≤ 0xdbff then
          match rest with
          | r1 :: r2 :: rest2 =>
            if r1 = '\\' ∧ r2 = 'u' then
              match parseHex4 rest2 with
              | none => none
              | some (lo, rest3) =>
                if 0xdc00 ≤ lo ∧ lo ≤ 0xdfff then
                  (parseStringRest f rest3).map (fun p =>
                    (Char.ofNat (0x10000 + (h - 0xd800) * 0x400 +
                      (lo - 0xdc00)) :: p.1, p.2))
                else none
            else none
          | _ => none
        else if 0xdc00 ≤ h ∧ h ≤ 0xdfff then none
        else (parseStringRest f rest).map (fun p =>
          (Char.ofNat h :: p.1, p.2)) := rfl

theorem parseStringRest_step_u2 (n : Nat) (hge : 0x10000 ≤ n)
    (hlt : n < 0x110000) (f : Nat) (tail : List Char) :
    parseStringRest (f + 1)
      ('\\' :: 'u' :: (toHex4 (0xd800 + (n - 0x10000) / 0x400) ++
        ('\\' :: 'u' :: (toHex4 (0xdc00 + (n - 0x10000) % 0x400) ++ tail)))) =
      (parseStringRest f tail).map (fun p => (Char.ofNat n :: p.1, p.2)) := by
  have h1 : 0xd800 + (n - 0x10000) / 0x400 < 0x10000 := by omega
  have h2 : 0xdc00 + (n - 0x10000) % 0x400 < 0x10000 := by omega
  have h3 : 0xd800 ≤ 0xd800 + (n - 0x10000) / 0x400 ∧
      0xd800 + (n - 0x10000) / 0x400 ≤ 0xdbff := by
    constructor
    · omega
    · omega
  have h4 : 0xdc00 ≤ 0xdc00 + (n - 0x10000) % 0x400 ∧
      0xdc00 + (n - 0x10000) % 0x400 ≤ 0xdfff := by
    constructor
    · omega
    · omega
  have harg : 0x10000 + (0xd800 + (n - 0x10000) / 0x400 - 0xd800) * 0x400 +
      (0xdc00 + (n - 0x10000) % 0x400 - 0xdc00) = n := by omega
  have h5 : Char.ofNat (0x10000 +
      (0xd800 + (n - 0x10000) / 0x400 - 0xd800) * 0x400 +
      (0xdc00 + (n - 0x10000) % 0x400 - 0xdc00)) = Char.ofNat n := by
    rw [harg]
  rw [parseStringRest_u_match]
  rw [parseHex4_toHex4 _ h1]
  simp only [if_pos h3]
  rw [if_pos (⟨trivial, trivial⟩ : True ∧ True)]
  rw [parseHex4_toHex4 _ h2]
  simp only [if_pos h4]
  rw [h5]

theorem parseStringRest_escChars :
    ∀ (s : List Char) (f : Nat) (rest : List Char), s.length + 1 ≤ f →
    parseStringRest f (escChars s ++ '\"' :: rest) = some (s, rest) := by
  intro s
  induction s with
  | nil =>
    intro f rest hf
    obtain ⟨g, rfl⟩ : ∃ g, f = g + 1 := ⟨f - 1, by omega⟩
    simp [escChars, parseStringRest]
  | cons c s ih =>
    intro f rest hf
    obtain ⟨g, rfl⟩ : ∃ g, f = g + 1 := ⟨f - 1, by omega⟩
    have hg : s.length + 1 ≤ g := by
      simp only [List.length_cons] at hf
      omega
    have hrec := ih g rest hg
    have hassoc : escChars (c :: s) ++ '\"' :: rest =
        escapeChar c ++ (escChars s ++ '\"' :: rest) := by
      simp [escChars, List.append_assoc]
    rw [hassoc]
    have hv : c.toNat < 0xd800 ∨ (0xdfff < c.toNat ∧ c.toNat < 0x110000) :=
      c.valid
    by_cases h1 : c = '\"'
    · subst h1
      rw [show escapeChar '\"' = ['\\', '\"'] from rfl,
        show (['\\', '\"'] : List Char) ++ (escChars s ++ '\"' :: rest) =
          '\\' :: '\"' :: (escChars s ++ '\"' :: rest) from rfl,
        parseStringRest_step_esc '\"' '\"' (by decide) (by decide), hrec]
      rfl
    by_cases h2 : c = '\\'
    · subst h2
      rw [show escapeChar '\\' = ['\\', '\\'] from rfl,
        show (['\\', '\\'] : List Char) ++ (escChars s ++ '\"' :: rest) =
          '\\' :: '\\' :: (escChars s ++ '\"' :: rest) from rfl,
        parseStringRest_step_esc '\\' '\\' (by decide) (by decide), hrec]
      rfl
    by_cases h3 : c = '\n'
    · subst h3
      rw [show escapeChar '\n' = ['\\', 'n'] from rfl,
        show (['\\', 'n'] : List Char) ++ (escChars s ++ '\"' :: rest) =
          '\\' :: 'n' :: (escChars s ++ '\"' :: rest) from rfl,
        parseStringRest_step_esc 'n' '\n' (by decide) (by decide), hrec]
      rfl
    by_cases h4 : c = '\t'
    · subst h4
      rw [show escapeChar '\t' = ['\\', 't'] from rfl,
        show (['\\', 't'] : List Char) ++ (escChars s ++ '\"' :: rest) =
          '\\' :: 't' :: (escChars s ++ '\"' :: rest) from rfl,
        parseStringRest_step_esc 't' '\t' (by decide) (by decide), hrec]
      rfl
    by_cases h5 : c = '\x0d'
    · subst h5
      rw [show escapeChar '\x0d' = ['\\', 'r'] from rfl,
        show (['\\', 'r'] : List Char) ++ (escChars s ++ '\"' :: rest) =
          '\\' :: 'r' :: (escChars s ++ '\"' :: rest) from rfl,
        parseStringRest_step_esc 'r' '\x0d' (by decide) (by decide), hrec]
      rfl
    by_cases h6 : c = '\x08'
    · subst h6
      rw [show escapeChar '\x08' = ['\\', 'b'] from rfl,
        show (['\\', 'b'] : List Char) ++ (escChars s ++ '\"' :: rest) =
          '\\' :: 'b' :: (escChars s ++ '\"' :: rest) from rfl,
        parseStringRest_step_esc 'b' '\x08' (by decide) (by decide), hrec]
      rfl
    by_cases h7 : c = '\x0c'
    · subst h7
      rw [show escapeChar '\x0c' = ['\\', 'f'] from rfl,
        show (['\\', 'f'] : List Char) ++ (escChars s ++ '\"' :: rest) =
          '\\' :: 'f' :: (escChars s ++ '\"' :: rest) from rfl,
        parseStringRest_step_esc 'f' '\x0c' (by decide) (by decide), hrec]
      rfl
    by_cases hP : 0x20 ≤ c.toNat ∧ c.toNat ≤ 0x7e
    · rw [show escapeChar c = [c] from by
        simp only [escapeChar, if_neg h1, if_neg h2, if_neg h3, if_neg h4,
          if_neg h5, if_neg h6, if_neg h7, if_pos hP],
        List.singleton_append,
        parseStringRest_step_plain c h1 h2 (by omega), hrec]
      rfl
    by_cases hB : c.toNat < 0x10000
    · rw [show escapeChar c = '\\' :: 'u' :: toHex4 c.toNat from by
        simp only [escapeChar, if_neg h1, if_neg h2, if_neg h3, if_neg h4,
          if_neg h5, if_neg h6, if_neg h7, if_neg hP, if_pos hB]]
      rw [show ('\\' :: 'u' :: toHex4 c.toNat) ++
          (escChars s ++ '\"' :: rest) =
          '\\' :: 'u' :: (toHex4 c.toNat ++ (escChars s ++ '\"' :: rest))
          from by simp]
      rw [parseStringRest_step_u c.toNat hB (by omega), hrec]
      simp
    · rw [show escapeChar c =
          ('\\' :: 'u' :: toHex4 (0xd800 + (c.toNat - 0x10000) / 0x400)) ++
          ('\\' :: 'u' :: toHex4 (0xdc00 + (c.toNat - 0x10000) % 0x400))
          from by
        simp only [escapeChar, if_neg h1, if_neg h2, if_neg h3, if_neg h4,
          if_neg h5, if_neg h6, if_neg h7, if_neg hP, if_neg hB]]
      rw [show (('\\' :: 'u' ::
            toHex4 (0xd800 + (c.toNat - 0x10000) / 0x400)) ++
          ('\\' :: 'u' ::
            toHex4 (0xdc00 + (c.toNat - 0x10000) % 0x400))) ++
          (escChars s ++ '\"' :: rest) =
          '\\' :: 'u' ::
            (toHex4 (0xd800 + (c.toNat - 0x10000) / 0x400) ++
            ('\\' :: 'u' ::
              (toHex4 (0xdc00 + (c.toNat - 0x10000) % 0x400) ++
                (escChars s ++ '\"' :: rest)))) from by simp]
      rw [parseStringRest_step_u2 c.toNat (by omega) (by omega), hrec]
      simp

theorem parseStr_escChars (s rest : List Char) :
    parseStr (escChars s ++ '\"' :: rest) = some (s, rest) := by
  unfold parseStr
  apply parseStringRest_escChars
  have h := length_le_escChars s
  simp only [List.length_append, List.length_cons]
  omega

/-! ## Codec lemmas: line structure of the dump -/

theorem linesD_ne_nil : ∀ v, linesD v ≠ []
  | Json.null => by simp [linesD]
  | Json.bool true => by simp [linesD]
  | Json.bool false => by simp [linesD]
  | Json.num _ => by simp [linesD]
  | Json.str _ => by simp [linesD]
  | Json.arr [] => by simp [linesD]
  | Json.arr (_ :: _) => by simp [linesD]
  | Json.obj [] => by simp [linesD]
  | Json.obj (_ :: _) => by simp [linesD]

theorem shiftB_ne_nil (b : List (Nat × List Char)) (h : b ≠ []) :
    shiftB b ≠ [] := by
  simp [shiftB, h]

theorem commaLast_ne_nil : ∀ b : List (Nat × List Char), b ≠ [] →
    commaLast b ≠ []
  | [], h => absurd rfl h
  | [_], _ => by simp [commaLast]
  | _ :: _ :: _, _ => by simp [commaLast]

theorem joinB_ne_nil : ∀ bs : List (List (Nat × List Char)), bs ≠ [] →
    (∀ b ∈ bs, b ≠ []) → joinB bs ≠ []
  | [], h, _ => absurd rfl h
  | [b], _, hb => by
    simpa [joinB] using hb b (by simp)
  | b :: b2 :: bs, _, hb => by
    simp only [joinB]
    have h1 : commaLast b ≠ [] := commaLast_ne_nil b (hb b (by simp))
    simp [h1]

theorem linesArr_blocks_ne_nil : ∀ L, ∀ b ∈ linesArr L, b ≠ []
  | [], b, hb => by simp [linesArr] at hb
  | x :: xs, b, hb => by
    simp only [linesArr, List.mem_cons] at hb
    rcases hb with hb | hb
    · rw [hb]
      exact shiftB_ne_nil _ (linesD_ne_nil x)
    · exact linesArr_blocks_ne_nil xs b hb

theorem prefixFirst_ne_nil (pre : List Char) :
    ∀ b : List (Nat × List Char), b ≠ [] → prefixFirst pre b ≠ []
  | [], h => absurd rfl h
  | _ :: _, _ => by simp [prefixFirst]

theorem linesObj_blocks_ne_nil : ∀ kvs, ∀ b ∈ linesObj kvs, b ≠ []
  | [], b, hb => by simp [linesObj] at hb
  | kv :: kvs, b, hb => by
    simp only [linesObj, List.mem_cons] at hb
    rcases hb with hb | hb
    · rw [hb]
      exact prefixFirst_ne_nil _ _ (shiftB_ne_nil _ (linesD_ne_nil kv.2))
    · exact linesObj_blocks_ne_nil kvs b hb

theorem joinLines_cons (a : List Char) (l : List (List Char)) (h : l ≠ []) :
    joinLines (a :: l) = a ++ '\n' :: joinLines l := by
  match l, h with
  | x :: xs, _ => rfl

theorem joinLines_append : ∀ (l1 l2 : List (List Char)), l1 ≠ [] → l2 ≠ [] →
    joinLines (l1 ++ l2) = joinLines l1 ++ '\n' :: joinLines l2
  | [], _, h1, _ => absurd rfl h1
  | [a], l2, _, h2 => by
    rw [List.singleton_append, joinLines_cons a l2 h2]
    rfl
  | a :: b :: l1, l2, _, h2 => by
    have ih := joinLines_append (b :: l1) l2 (by simp) h2
    rw [show (a :: b :: l1) ++ l2 = a :: ((b :: l1) ++ l2) from rfl]
    rw [joinLines_cons a ((b :: l1) ++ l2) (by simp)]
    rw [ih, joinLines_cons a (b :: l1) (by simp)]
    simp

theorem map_snd_shiftB (b : List (Nat × List Char)) :
    (shiftB b).map Prod.snd = b.map Prod.snd := by
  simp [shiftB]

theorem joinLines_map_commaLast : ∀ b : List (Nat × List Char), b ≠ [] →
    joinLines ((commaLast b).map Prod.snd) =
      joinLines (b.map Prod.snd) ++ [',']
  | [], h => absurd rfl h
  | [p], _ => by simp [commaLast, joinLines]
  | p :: q :: r, _ => by
    have ih := joinLines_map_commaLast (q :: r) (by simp)
    simp only [commaLast, List.map_cons]
    rw [joinLines_cons p.2 ((commaLast (q :: r)).map Prod.snd)
      (by simp [commaLast_ne_nil (q :: r) (by simp)])]
    rw [ih]
    simp only [List.map_cons]
    rw [joinLines_cons p.2 (q.2 :: List.map Prod.snd r) (by simp)]
    simp

theorem joinLines_map_prefixFirst (pre : List Char) :
    ∀ b : List (Nat × List Char), b ≠ [] →
    joinLines ((prefixFirst pre b).map Prod.snd) =
      pre ++ joinLines (b.map Prod.snd)
  | [], h => absurd rfl h
  | [p], _ => by simp [prefixFirst, joinLines]
  | p :: q :: r, _ => by
    simp only [prefixFirst, List.map_cons]
    rw [joinLines_cons (pre ++ p.2) (q.2 :: List.map Prod.snd r) (by simp)]
    rw [joinLines_cons p.2 (q.2 :: List.map Prod.snd r) (by simp)]
    simp

theorem joinLines_joinB_linesArr : ∀ L, L ≠ [] →
    joinLines ((joinB (linesArr L)).map Prod.snd) = flatSeq L
  | [], h => absurd rfl h
  | [x], _ => by
    simp only [linesArr, joinB, map_snd_shiftB, flatSeq]
    rfl
  | x :: x2 :: xs, _ => by
    have ih := joinLines_joinB_linesArr (x2 :: xs) (by simp)
    rw [show linesArr (x :: x2 :: xs) =
      shiftB (linesD x) :: linesArr (x2 :: xs) from rfl]
    rw [show linesArr (x2 :: xs) = shiftB (linesD x2) :: linesArr xs from rfl]
    rw [show joinB (shiftB (linesD x) ::
        shiftB (linesD x2) :: linesArr xs) =
      commaLast (shiftB (linesD x)) ++
        joinB (shiftB (linesD x2) :: linesArr xs) from rfl]
    rw [List.map_append]
    rw [joinLines_append _ _
      (by simp [commaLast_ne_nil _ (shiftB_ne_nil _ (linesD_ne_nil x))])
      (by
        have := joinB_ne_nil (shiftB (linesD x2) :: linesArr xs) (by simp)
          (by
            intro b hb
            rcases List.mem_cons.mp hb with hb | hb
            · rw [hb]; exact shiftB_ne_nil _ (linesD_ne_nil x2)
            · exact linesArr_blocks_ne_nil xs b hb)
        simp [this])]
    rw [joinLines_map_commaLast _ (shiftB_ne_nil _ (linesD_ne_nil x))]
    rw [map_snd_shiftB]
    rw [show joinB (shiftB (linesD x2) :: linesArr xs) =
      joinB (linesArr (x2 :: xs)) from rfl]
    rw [ih]
    show (flatChars x ++ [',']) ++ '\n' :: flatSeq (x2 :: xs) = _
    rw [show flatSeq (x :: x2 :: xs) =
      flatChars x ++ ',' :: '\n' :: flatSeq (x2 :: xs) from rfl]
    simp

theorem joinLines_joinB_linesObj : ∀ kvs, kvs ≠ [] →
    joinLines ((joinB (linesObj kvs)).map Prod.snd) = flatMembers kvs
  | [], h => absurd rfl h
  | [kv], _ => by
    simp only [linesObj, joinB]
    rw [joinLines_map_prefixFirst _ _ (shiftB_ne_nil _ (linesD_ne_nil kv.2))]
    rw [map_snd_shiftB]
    rfl
  | kv :: kv2 :: kvs, _ => by
    have ih := joinLines_joinB_linesObj (kv2 :: kvs) (by simp)
    rw [show linesObj (kv :: kv2 :: kvs) =
      prefixFirst (keyChars kv.1) (shiftB (linesD kv.2)) ::
        linesObj (kv2 :: kvs) from rfl]
    rw [show linesObj (kv2 :: kvs) =
      prefixFirst (keyChars kv2.1) (shiftB (linesD kv2.2)) ::
        linesObj kvs from rfl]
    rw [show joinB (prefixFirst (keyChars kv.1) (shiftB (linesD kv.2)) ::
        prefixFirst (keyChars kv2.1) (shiftB (linesD kv2.2)) ::
        linesObj kvs) =
      commaLast (prefixFirst (keyChars kv.1) (shiftB (linesD kv.2))) ++
        joinB (prefixFirst (keyChars kv2.1) (shiftB (linesD kv2.2)) ::
          linesObj kvs) from rfl]
    rw [List.map_append]
    have hb1 : prefixFirst (keyChars kv.1) (shiftB (linesD kv.2)) ≠ [] :=
      prefixFirst_ne_nil _ _ (shiftB_ne_nil _ (linesD_ne_nil kv.2))
    rw [joinLines_append _ _
      (by simp [commaLast_ne_nil _ hb1])
      (by
        have := joinB_ne_nil
          (prefixFirst (keyChars kv2.1) (shiftB (linesD kv2.2)) ::
            linesObj kvs) (by simp)
          (by
            intro b hb
            rcases List.mem_cons.mp hb with hb | hb
            · rw [hb]
              exact prefixFirst_ne_nil _ _
                (shiftB_ne_nil _ (linesD_ne_nil kv2.2))
            · exact linesObj_blocks_ne_nil kvs b hb)
        simp [this])]
    rw [joinLines_map_commaLast _ hb1]
    rw [joinLines_map_prefixFirst _ _ (shiftB_ne_nil _ (linesD_ne_nil kv.2))]
    rw [map_snd_shiftB]
    rw [show joinB (prefixFirst (keyChars kv2.1) (shiftB (linesD kv2.2)) ::
        linesObj kvs) = joinB (linesObj (kv2 :: kvs)) from rfl]
    rw [ih]
    rw [show flatMembers (kv :: kv2 :: kvs) =
      keyChars kv.1 ++ flatChars kv.2 ++
        ',' :: '\n' :: flatMembers (kv2 :: kvs) from rfl]
    simp [flatChars]

theorem flat_arr (x : Json) (xs : List Json) :
    flatChars (Json.arr (x :: xs)) =
      '[' :: '\n' :: (flatSeq (x :: xs) ++ '\n' :: [']']) := by
  have h0 : flatChars (Json.arr (x :: xs)) =
      joinLines (((0, ['[']) ::
        joinB (linesArr (x :: xs)) ++ [(0, [']'])]).map Prod.snd) := rfl
  rw [h0, List.cons_append, List.map_cons, List.map_append]
  have hmid : (joinB (linesArr (x :: xs))).map Prod.snd ≠ [] := by
    have := joinB_ne_nil (linesArr (x :: xs))
      (by simp [linesArr]) (linesArr_blocks_ne_nil (x :: xs))
    simp [this]
  rw [joinLines_cons _ _ (by simp [hmid]), joinLines_append _ _ hmid (by simp)]
  rw [joinLines_joinB_linesArr (x :: xs) (by simp)]
  rfl

theorem flat_obj (kv : String × Json) (kvs : List (String × Json)) :
    flatChars (Json.obj (kv :: kvs)) =
      '\x7b' :: '\n' :: (flatMembers (kv :: kvs) ++ '\n' :: ['\x7d']) := by
  have h0 : flatChars (Json.obj (kv :: kvs)) =
      joinLines (((0, ['\x7b']) ::
        joinB (linesObj (kv :: kvs)) ++ [(0, ['\x7d'])]).map Prod.snd) := rfl
  rw [h0, List.cons_append, List.map_cons, List.map_append]
  have hmid : (joinB (linesObj (kv :: kvs))).map Prod.snd ≠ [] := by
    have := joinB_ne_nil (linesObj (kv :: kvs))
      (by simp [linesObj]) (linesObj_blocks_ne_nil (kv :: kvs))
    simp [this]
  rw [joinLines_cons _ _ (by simp [hmid]), joinLines_append _ _ hmid (by simp)]
  rw [joinLines_joinB_linesObj (kv :: kvs) (by simp)]
  rfl

/-! ## Codec lemmas: flattened scalars, heads, whitespace, sizes -/

theorem flat_null : flatChars Json.null = 'n' :: ("ull").data := rfl

theorem flat_true : flatChars (Json.bool true) = 't' :: ("rue").data := rfl

theorem flat_false : flatChars (Json.bool false) = 'f' :: ("alse").data := rfl

theorem flat_num (i : Int) : flatChars (Json.num i) = intChars i := rfl

theorem flat_str (s : String) :
    flatChars (Json.str s) = '"' :: (escChars s.data ++ ['"']) := by
  show joinLines [('"' :: escChars s.data ++ ['"'])] = _
  show '"' :: escChars s.data ++ ['"'] = _
  simp

theorem flat_arr_nil : flatChars (Json.arr []) = '[' :: [']'] := rfl

theorem flat_obj_nil : flatChars (Json.obj []) = '\x7b' :: ['\x7d'] := rfl

theorem intChars_ne_nil (i : Int) : intChars i ≠ [] := by
  unfold intChars
  split_ifs
  · simp
  · exact natChars_ne_nil _

theorem digitChar_not_special : ∀ k < 10,
    isJsonWs (Char.ofNat (48 + k)) = false ∧ Char.ofNat (48 + k) ≠ ']' ∧
    Char.ofNat (48 + k) ≠ 'n' ∧ Char.ofNat (48 + k) ≠ 't' ∧
    Char.ofNat (48 + k) ≠ 'f' ∧ Char.ofNat (48 + k) ≠ '"' ∧
    Char.ofNat (48 + k) ≠ '[' ∧ Char.ofNat (48 + k) ≠ '\x7b' := by
  decide

/-- The first character of a flattened value: never whitespace and never a
closing bracket. -/
theorem flat_head (v : Json) :
    ∃ c t, flatChars v = c :: t ∧ isJsonWs c = false ∧ c ≠ ']' := by
  cases v with
  | null => exact ⟨'n', _, flat_null, by decide, by decide⟩
  | bool b =>
    cases b with
    | true => exact ⟨'t', _, flat_true, by decide, by decide⟩
    | false => exact ⟨'f', _, flat_false, by decide, by decide⟩
  | num i =>
    by_cases hneg : i < 0
    · refine ⟨'-', natChars (-i).toNat, ?_, by decide, by decide⟩
      rw [flat_num]
      simp [intChars, hneg]
    · obtain ⟨k, tl, hk, heq⟩ := natChars_head i.toNat
      have hfacts := digitChar_not_special k hk
      refine ⟨Char.ofNat (48 + k), tl, ?_, hfacts.1, hfacts.2.1⟩
      rw [flat_num]
      simp [intChars, hneg, heq]
  | str s => exact ⟨'"', _, flat_str s, by decide, by decide⟩
  | arr xs =>
    cases xs with
    | nil => exact ⟨'[', _, flat_arr_nil, by decide, by decide⟩
    | cons x xs => exact ⟨'[', _, flat_arr x xs, by decide, by decide⟩
  | obj kvs =>
    cases kvs with
    | nil => exact ⟨'\x7b', _, flat_obj_nil, by decide, by decide⟩
    | cons kv kvs => exact ⟨'\x7b', _, flat_obj kv kvs, by decide, by decide⟩

theorem flatSeq_cons_decompose (x : Json) (xs : List Json) :
    ∃ s, flatSeq (x :: xs) = flatChars x ++ s := by
  cases xs with
  | nil => exact ⟨[], by simp [flatSeq]⟩
  | cons x2 xs => exact ⟨',' :: '\n' :: flatSeq (x2 :: xs), rfl⟩

theorem flatMembers_cons_decompose (kv : String × Json)
    (kvs : List (String × Json)) :
    ∃ s, flatMembers (kv :: kvs) = keyChars kv.1 ++ (flatChars kv.2 ++ s) := by
  cases kvs with
  | nil => exact ⟨[], by simp [flatMembers]⟩
  | cons kv2 kvs =>
    exact ⟨',' :: '\n' :: flatMembers (kv2 :: kvs), by simp [flatMembers]⟩

theorem skipWs_cons_false (c : Char) (t : List Char)
    (hc : isJsonWs c = false) : skipWs (c :: t) = c :: t := by
  simp [skipWs, hc]

theorem skipWs_ws_append : ∀ (w : List Char), isWsList w = true →
    ∀ cs, skipWs (w ++ cs) = skipWs cs
  | [], _, cs => rfl
  | a :: as, hw, cs => by
    simp only [isWsList, List.all_cons, Bool.and_eq_true] at hw
    show skipWs (a :: (as ++ cs)) = skipWs cs
    simp only [skipWs, List.dropWhile_cons, hw.1, if_true]
    exact skipWs_ws_append as (by simp [isWsList, hw.2]) cs

theorem restDelim_newline (l : List Char) : restDelim ('\n' :: l) = true := rfl

theorem restDelim_comma (l : List Char) : restDelim (',' :: l) = true := rfl

theorem isPrefixOf_append : ∀ (l r : List Char), l.isPrefixOf (l ++ r) = true
  | [], _ => by simp
  | a :: as, r => by
    simp only [List.cons_append, List.isPrefixOf_cons₂_self]
    exact isPrefixOf_append as r

theorem sizeV_pos : ∀ v, 1 ≤ sizeV v
  | Json.null => le_refl 1
  | Json.bool _ => le_refl 1
  | Json.num _ => le_refl 1
  | Json.str _ => le_refl 1
  | Json.arr xs => Nat.le_add_right 1 (seqSize xs)
  | Json.obj kvs => Nat.le_add_right 1 (memSize kvs)

theorem seqSize_pos : ∀ L, 1 ≤ seqSize L
  | [] => le_refl 1
  | x :: xs => by simp [seqSize]; omega

theorem memSize_pos : ∀ kvs, 1 ≤ memSize kvs
  | [] => le_refl 1
  | kv :: kvs => by simp [memSize]; omega

theorem size_le_flat_aux : ∀ n : Nat,
    (∀ v, sizeV v ≤ n → sizeV v ≤ (flatChars v).length) ∧
    (∀ L, seqSize L ≤ n → L ≠ [] →
      seqSize L ≤ (flatSeq L).length + 2) ∧
    (∀ kvs, memSize kvs ≤ n → kvs ≠ [] →
      memSize kvs ≤ (flatMembers kvs).length + 2) := by
  intro n
  induction n with
  | zero =>
    refine ⟨fun v hv => absurd hv (by have := sizeV_pos v; omega), ?_, ?_⟩
    · exact fun L hL _ => absurd hL (by have := seqSize_pos L; omega)
    · exact fun kvs hk _ => absurd hk (by have := memSize_pos kvs; omega)
  | succ n ih =>
    refine ⟨?_, ?_, ?_⟩
    · intro v hv
      cases v with
      | null => rw [flat_null]; simp [sizeV]
      | bool b =>
        cases b with
        | true => rw [flat_true]; simp [sizeV]
        | false => rw [flat_false]; simp [sizeV]
      | num i =>
        rw [flat_num]
        have := List.length_pos.mpr (intChars_ne_nil i)
        simp [sizeV]
        omega
      | str s => rw [flat_str]; simp [sizeV]
      | arr xs =>
        cases xs with
        | nil => rw [flat_arr_nil]; simp [sizeV, seqSize]
        | cons x xs =>
          rw [flat_arr]
          have hs : seqSize (x :: xs) ≤ n := by
            simp only [sizeV] at hv
            omega
          have hb := ih.2.1 (x :: xs) hs (by simp)
          simp only [sizeV, List.length_cons, List.length_append]
          simp at hb ⊢
          omega
      | obj kvs =>
        cases kvs with
        | nil => rw [flat_obj_nil]; simp [sizeV, memSize]
        | cons kv kvs =>
          rw [flat_obj]
          have hs : memSize (kv :: kvs) ≤ n := by
            simp only [sizeV] at hv
            omega
          have hb := ih.2.2 (kv :: kvs) hs (by simp)
          simp only [sizeV, List.length_cons, List.length_append]
          simp at hb ⊢
          omega
    · intro L hL hne
      match L, hne with
      | [x], _ =>
        have hx : sizeV x ≤ n := by
          simp only [seqSize] at hL
          have := sizeV_pos x
          omega
        have := ih.1 x hx
        show seqSize [x] ≤ (flatChars x).length + 2
        simp only [seqSize]
        omega
      | x :: x2 :: xs, _ =>
        have hL' : 1 + sizeV x + seqSize (x2 :: xs) ≤ n + 1 := hL
        have hx : sizeV x ≤ n := by
          have := seqSize_pos (x2 :: xs)
          omega
        have hrest : seqSize (x2 :: xs) ≤ n := by
          have := sizeV_pos x
          omega
        have h1 := ih.1 x hx
        have h2 := ih.2.1 (x2 :: xs) hrest (by simp)
        show 1 + sizeV x + seqSize (x2 :: xs) ≤
          (flatChars x ++ ',' :: '\n' :: flatSeq (x2 :: xs)).length + 2
        simp only [List.length_append, List.length_cons]
        omega
    · intro kvs hk hne
      match kvs, hne with
      | [kv], _ =>
        have hx : sizeV kv.2 ≤ n := by
          simp only [memSize] at hk
          have := sizeV_pos kv.2
          omega
        have := ih.1 kv.2 hx
        show memSize [kv] ≤ (flatMembers [kv]).length + 2
        rw [show flatMembers [kv] = keyChars kv.1 ++ flatChars kv.2 from rfl]
        simp only [memSize, List.length_append]
        omega
      | kv :: kv2 :: kvs, _ =>
        have hk' : 1 + sizeV kv.2 + memSize (kv2 :: kvs) ≤ n + 1 := hk
        have hx : sizeV kv.2 ≤ n := by
          have := memSize_pos (kv2 :: kvs)
          omega
        have hrest : memSize (kv2 :: kvs) ≤ n := by
          have := sizeV_pos kv.2
          omega
        have h1 := ih.1 kv.2 hx
        have h2 := ih.2.2 (kv2 :: kvs) hrest (by simp)
        show 1 + sizeV kv.2 + memSize (kv2 :: kvs) ≤
          (keyChars kv.1 ++ flatChars kv.2 ++
            ',' :: '\n' :: flatMembers (kv2 :: kvs)).length + 2
        simp only [List.length_append, List.length_cons]
        omega

theorem sizeV_le_flat (v : Json) : sizeV v ≤ (flatChars v).length :=
  (size_le_flat_aux (sizeV v)).1 v (le_refl _)

/-! ## Codec lemmas: the parser recovers every flattened value -/

theorem skipWs_cons_true (c : Char) (t : List Char)
    (hc : isJsonWs c = true) : skipWs (c :: t) = skipWs t := by
  simp [skipWs, List.dropWhile_cons, hc]

theorem skipWs_flat (w : List Char) (hw : isWsList w = true) (c0 : Char)
    (hc0 : isJsonWs c0 = false) (body rest : List Char) :
    skipWs (w ++ ((c0 :: body) ++ rest)) = c0 :: (body ++ rest) := by
  rw [skipWs_ws_append w hw, List.cons_append]
  exact skipWs_cons_false c0 _ hc0

theorem parse_flat_aux : ∀ f : Nat,
    (∀ v (w rest : List Char), sizeV v ≤ f → isWsList w = true →
      restDelim rest = true →
      parseValue f (w ++ (flatChars v ++ rest)) = some (v, rest)) ∧
    (∀ L (w rest : List Char), seqSize L ≤ f → L ≠ [] → isWsList w = true →
      parseElemsRequired f
        (w ++ (flatSeq L ++ '\n' :: ']' :: rest)) = some (L, rest)) ∧
    (∀ kvs (w rest : List Char), memSize kvs ≤ f → kvs ≠ [] →
      isWsList w = true →
      parseMembersRequired f
        (w ++ (flatMembers kvs ++ '\n' :: '\x7d' :: rest)) =
          some (kvs, rest)) := by
  intro f
  induction f with
  | zero =>
    refine ⟨fun v _ _ hv _ _ => absurd hv (by have := sizeV_pos v; omega),
      fun L _ _ hL _ _ => absurd hL (by have := seqSize_pos L; omega),
      fun kvs _ _ hk _ _ => absurd hk (by have := memSize_pos kvs; omega)⟩
  | succ f ih =>
    refine ⟨?_, ?_, ?_⟩
    · intro v w rest hv hw hr
      cases v with
      | null =>
        rw [flat_null]
        have hskip := skipWs_flat w hw 'n' (by decide) ("ull").data rest
        simp only [parseValue, hskip]
        rw [if_pos (by decide),
          if_pos (isPrefixOf_append ['u', 'l', 'l'] rest)]
        rw [show (3 : Nat) = (['u', 'l', 'l'] : List Char).length from rfl,
          List.drop_left]
      | bool b =>
        cases b with
        | true =>
          rw [flat_true]
          have hskip := skipWs_flat w hw 't' (by decide) ("rue").data rest
          simp only [parseValue, hskip]
          rw [if_neg (by decide), if_pos (by decide),
            if_pos (isPrefixOf_append ['r', 'u', 'e'] rest)]
          rw [show (3 : Nat) = (['r', 'u', 'e'] : List Char).length from rfl,
            List.drop_left]
        | false =>
          rw [flat_false]
          have hskip := skipWs_flat w hw 'f' (by decide) ("alse").data rest
          simp only [parseValue, hskip]
          rw [if_neg (by decide), if_neg (by decide), if_pos (by decide),
            if_pos (isPrefixOf_append ['a', 'l', 's', 'e'] rest)]
          rw [show (4 : Nat) = (['a', 'l', 's', 'e'] : List Char).length
            from rfl, List.drop_left]
      | num i =>
        rw [flat_num]
        by_cases hneg : i < 0
        · have heqi : intChars i = '-' :: natChars (-i).toNat := by
            simp [intChars, hneg]
          rw [heqi]
          have hskip := skipWs_flat w hw '-' (by decide)
            (natChars (-i).toNat) rest
          simp only [parseValue, hskip]
          rw [if_neg (by decide), if_neg (by decide), if_neg (by decide),
            if_neg (by decide), if_neg (by decide), if_neg (by decide)]
          rw [show ('-' :: (natChars (-i).toNat ++ rest)) =
            intChars i ++ rest from by rw [heqi]; rfl]
          exact parseNumber_intChars i rest hr
        · have heqi : intChars i = natChars i.toNat := by
            simp [intChars, hneg]
          obtain ⟨k, tl, hk, heq⟩ := natChars_head i.toNat
          have hfacts := digitChar_not_special k hk
          rw [heqi, heq]
          have hskip := skipWs_flat w hw (Char.ofNat (48 + k)) hfacts.1 tl rest
          simp only [parseValue, hskip]
          rw [if_neg hfacts.2.2.1, if_neg hfacts.2.2.2.1,
            if_neg hfacts.2.2.2.2.1, if_neg hfacts.2.2.2.2.2.1,
            if_neg hfacts.2.2.2.2.2.2.1, if_neg hfacts.2.2.2.2.2.2.2]
          rw [show (Char.ofNat (48 + k) :: (tl ++ rest)) =
            intChars i ++ rest from by rw [heqi, heq]; rfl]
          exact parseNumber_intChars i rest hr
      | str s =>
        rw [flat_str]
        have hskip := skipWs_flat w hw '"' (by decide)
          (escChars s.data ++ ['"']) rest
        simp only [parseValue, hskip]
        rw [if_neg (by decide), if_neg (by decide), if_neg (by decide),
          if_pos (by decide)]
        rw [List.append_assoc, List.singleton_append]
        rw [parseStr_escChars s.data rest]
      | arr L =>
        cases L with
        | nil =>
          rw [flat_arr_nil]
          have hskip := skipWs_flat w hw '[' (by decide) [']'] rest
          simp only [parseValue, hskip]
          rw [if_neg (by decide), if_neg (by decide), if_neg (by decide),
            if_neg (by decide), if_pos (by decide)]
          have hskip2 : skipWs (([']'] : List Char) ++ rest) = ']' :: rest := by
            rw [List.singleton_append]
            exact skipWs_cons_false ']' rest (by decide)
          simp only [hskip2]
          rw [if_pos (by decide)]
        | cons x xs =>
          obtain ⟨s, hseq⟩ := flatSeq_cons_decompose x xs
          obtain ⟨c, t, hflat, hcws, hcbr⟩ := flat_head x
          rw [flat_arr]
          have hszq : seqSize (x :: xs) ≤ f := by
            have hv' : 1 + seqSize (x :: xs) ≤ f + 1 := hv
            omega
          have hskip := skipWs_flat w hw '[' (by decide)
            ('\n' :: (flatSeq (x :: xs) ++ '\n' :: [']'])) rest
          simp only [parseValue, hskip]
          rw [if_neg (by decide), if_neg (by decide), if_neg (by decide),
            if_neg (by decide), if_pos (by decide)]
          have hskip2 :
              skipWs (('\n' :: (flatSeq (x :: xs) ++ '\n' :: [']'])) ++ rest) =
              c :: (t ++ s ++ ('\n' :: ']' :: rest)) := by
            rw [List.cons_append, skipWs_cons_true '\n' _ (by decide)]
            rw [show (flatSeq (x :: xs) ++ '\n' :: [']']) ++ rest =
              flatSeq (x :: xs) ++ ('\n' :: ']' :: rest) from by simp]
            rw [hseq, hflat]
            rw [show ((c :: t) ++ s) ++ ('\n' :: ']' :: rest) =
              c :: (t ++ s ++ ('\n' :: ']' :: rest)) from by simp]
            exact skipWs_cons_false c _ hcws
          simp only [hskip2]
          rw [if_neg hcbr]
          rw [show (c :: (t ++ s ++ ('\n' :: ']' :: rest))) =
            flatSeq (x :: xs) ++ '\n' :: ']' :: rest from by
            rw [hseq, hflat]; simp]
          have hpe := ih.2.1 (x :: xs) [] rest hszq (by simp) rfl
          rw [List.nil_append] at hpe
          simp only [hpe]
      | obj M =>
        cases M with
        | nil =>
          rw [flat_obj_nil]
          have hskip := skipWs_flat w hw '\x7b' (by decide) ['\x7d'] rest
          simp only [parseValue, hskip]
          rw [if_neg (by decide), if_neg (by decide), if_neg (by decide),
            if_neg (by decide), if_neg (by decide), if_pos (by decide)]
          have hskip2 : skipWs ((['\x7d'] : List Char) ++ rest) =
              '\x7d' :: rest := by
            rw [List.singleton_append]
            exact skipWs_cons_false '\x7d' rest (by decide)
          simp only [hskip2]
          rw [if_pos (by decide)]
        | cons kv kvs =>
          obtain ⟨s, hmem⟩ := flatMembers_cons_decompose kv kvs
          rw [flat_obj]
          have hszq : memSize (kv :: kvs) ≤ f := by
            have hv' : 1 + memSize (kv :: kvs) ≤ f + 1 := hv
            omega
          have hskip := skipWs_flat w hw '\x7b' (by decide)
            ('\n' :: (flatMembers (kv :: kvs) ++ '\n' :: ['\x7d'])) rest
          simp only [parseValue, hskip]
          rw [if_neg (by decide), if_neg (by decide), if_neg (by decide),
            if_neg (by decide), if_neg (by decide), if_pos (by decide)]
          have hskip2 :
              skipWs (('\n' ::
                (flatMembers (kv :: kvs) ++ '\n' :: ['\x7d'])) ++ rest) =
              '"' :: ((escChars kv.1.data ++ ('"' :: ':' :: ' ' :: [])) ++
                (flatChars kv.2 ++ s) ++ ('\n' :: '\x7d' :: rest)) := by
            rw [List.cons_append, skipWs_cons_true '\n' _ (by decide)]
            rw [show (flatMembers (kv :: kvs) ++ '\n' :: ['\x7d']) ++ rest =
              flatMembers (kv :: kvs) ++ ('\n' :: '\x7d' :: rest) from by simp]
            rw [hmem]
            rw [show (keyChars kv.1 ++ (flatChars kv.2 ++ s)) ++
                ('\n' :: '\x7d' :: rest) =
              '"' :: ((escChars kv.1.data ++ ('"' :: ':' :: ' ' :: [])) ++
                (flatChars kv.2 ++ s) ++ ('\n' :: '\x7d' :: rest)) from by
              simp [keyChars]]
            exact skipWs_cons_false '"' _ (by decide)
          simp only [hskip2]
          rw [if_neg (by decide)]
          rw [show ('"' :: ((escChars kv.1.data ++ ('"' :: ':' :: ' ' :: [])) ++
              (flatChars kv.2 ++ s) ++ ('\n' :: '\x7d' :: rest))) =
            flatMembers (kv :: kvs) ++ '\n' :: '\x7d' :: rest from by
            rw [hmem]; simp [keyChars]]
          have hpm := ih.2.2 (kv :: kvs) [] rest hszq (by simp) rfl
          rw [List.nil_append] at hpm
          simp only [hpm]
    · intro L w rest hL hne hw
      match L, hne with
      | [x], _ =>
        have hx : sizeV x ≤ f := by
          have hL' : 1 + sizeV x + 1 ≤ f + 1 := hL
          omega
        rw [show flatSeq [x] = flatChars x from rfl]
        simp only [parseElemsRequired]
        have hpv := ih.1 x w ('\n' :: ']' :: rest) hx hw rfl
        simp only [hpv]
        have hskip3 : skipWs ('\n' :: ']' :: rest) = ']' :: rest := by
          rw [skipWs_cons_true '\n' _ (by decide)]
          exact skipWs_cons_false ']' rest (by decide)
        simp only [hskip3]
        rw [if_neg (by decide), if_pos (by decide)]
      | x :: x2 :: xs, _ =>
        have hL' : 1 + sizeV x + seqSize (x2 :: xs) ≤ f + 1 := hL
        have hx : sizeV x ≤ f := by
          have := seqSize_pos (x2 :: xs)
          omega
        have hrest : seqSize (x2 :: xs) ≤ f := by
          have := sizeV_pos x
          omega
        rw [show flatSeq (x :: x2 :: xs) =
          flatChars x ++ ',' :: '\n' :: flatSeq (x2 :: xs) from rfl]
        rw [show (flatChars x ++ ',' :: '\n' :: flatSeq (x2 :: xs)) ++
            '\n' :: ']' :: rest =
          flatChars x ++ (',' :: '\n' ::
            (flatSeq (x2 :: xs) ++ '\n' :: ']' :: rest)) from by simp]
        simp only [parseElemsRequired]
        have hpv := ih.1 x w
          (',' :: '\n' :: (flatSeq (x2 :: xs) ++ '\n' :: ']' :: rest))
          hx hw rfl
        simp only [hpv]
        have hskip3 : skipWs (',' :: '\n' ::
            (flatSeq (x2 :: xs) ++ '\n' :: ']' :: rest)) =
            ',' :: '\n' :: (flatSeq (x2 :: xs) ++ '\n' :: ']' :: rest) :=
          skipWs_cons_false ',' _ (by decide)
        simp only [hskip3]
        rw [if_pos (by decide)]
        have hpe := ih.2.1 (x2 :: xs) ['\n'] rest hrest (by simp) (by decide)
        rw [show (['\n'] : List Char) ++
          (flatSeq (x2 :: xs) ++ '\n' :: ']' :: rest) =
          '\n' :: (flatSeq (x2 :: xs) ++ '\n' :: ']' :: rest) from rfl] at hpe
        simp only [hpe]
    · intro kvs w rest hk hne hw
      match kvs, hne with
      | [kv], _ =>
        have hx : sizeV kv.2 ≤ f := by
          have hk' : 1 + sizeV kv.2 + 1 ≤ f + 1 := hk
          omega
        rw [show flatMembers [kv] = keyChars kv.1 ++ flatChars kv.2 from rfl]
        have hskipm : skipWs (w ++ ((keyChars kv.1 ++ flatChars kv.2) ++
            '\n' :: '\x7d' :: rest)) =
            '"' :: (escChars kv.1.data ++
              ('"' :: ':' :: ' ' ::
                (flatChars kv.2 ++ '\n' :: '\x7d' :: rest))) := by
          rw [skipWs_ws_append w hw]
          rw [show (keyChars kv.1 ++ flatChars kv.2) ++
              '\n' :: '\x7d' :: rest =
            '"' :: (escChars kv.1.data ++
              ('"' :: ':' :: ' ' ::
                (flatChars kv.2 ++ '\n' :: '\x7d' :: rest))) from by
            simp [keyChars]]
          exact skipWs_cons_false '"' _ (by decide)
        simp only [parseMembersRequired, hskipm]
        rw [if_pos (by decide)]
        rw [parseStr_escChars kv.1.data
          (':' :: ' ' :: (flatChars kv.2 ++ '\n' :: '\x7d' :: rest))]
        have hskipc : skipWs (':' :: ' ' ::
            (flatChars kv.2 ++ '\n' :: '\x7d' :: rest)) =
            ':' :: ' ' :: (flatChars kv.2 ++ '\n' :: '\x7d' :: rest) :=
          skipWs_cons_false ':' _ (by decide)
        simp only [hskipc]
        rw [if_pos (by decide)]
        have hpv := ih.1 kv.2 [' '] ('\n' :: '\x7d' :: rest) hx (by decide) rfl
        rw [show ([' '] : List Char) ++
          (flatChars kv.2 ++ '\n' :: '\x7d' :: rest) =
          ' ' :: (flatChars kv.2 ++ '\n' :: '\x7d' :: rest) from rfl] at hpv
        simp only [hpv]
        have hskip3 : skipWs ('\n' :: '\x7d' :: rest) = '\x7d' :: rest := by
          rw [skipWs_cons_true '\n' _ (by decide)]
          exact skipWs_cons_false '\x7d' rest (by decide)
        simp only [hskip3]
        rw [if_neg (by decide), if_pos (by decide)]
      | kv :: kv2 :: kvs, _ =>
        have hk' : 1 + sizeV kv.2 + memSize (kv2 :: kvs) ≤ f + 1 := hk
        have hx : sizeV kv.2 ≤ f := by
          have := memSize_pos (kv2 :: kvs)
          omega
        have hrest : memSize (kv2 :: kvs) ≤ f := by
          have := sizeV_pos kv.2
          omega
        rw [show flatMembers (kv :: kv2 :: kvs) =
          keyChars kv.1 ++ flatChars kv.2 ++
            ',' :: '\n' :: flatMembers (kv2 :: kvs) from rfl]
        have hskipm : skipWs (w ++ ((keyChars kv.1 ++ flatChars kv.2 ++
            ',' :: '\n' :: flatMembers (kv2 :: kvs)) ++
            '\n' :: '\x7d' :: rest)) =
            '"' :: (escChars kv.1.data ++
              ('"' :: ':' :: ' ' ::
                (flatChars kv.2 ++ ',' :: '\n' ::
                  (flatMembers (kv2 :: kvs) ++ '\n' :: '\x7d' :: rest)))) := by
          rw [skipWs_ws_append w hw]
          rw [show (keyChars kv.1 ++ flatChars kv.2 ++
              ',' :: '\n' :: flatMembers (kv2 :: kvs)) ++
              '\n' :: '\x7d' :: rest =
            '"' :: (escChars kv.1.data ++
              ('"' :: ':' :: ' ' ::
                (flatChars kv.2 ++ ',' :: '\n' ::
                  (flatMembers (kv2 :: kvs) ++ '\n' :: '\x7d' :: rest)))) from by
            simp [keyChars]]
          exact skipWs_cons_false '"' _ (by decide)
        simp only [parseMembersRequired, hskipm]
        rw [if_pos (by decide)]
        rw [parseStr_escChars kv.1.data
          (':' :: ' ' :: (flatChars kv.2 ++ ',' :: '\n' ::
            (flatMembers (kv2 :: kvs) ++ '\n' :: '\x7d' :: rest)))]
        have hskipc : skipWs (':' :: ' ' ::
            (flatChars kv.2 ++ ',' :: '\n' ::
              (flatMembers (kv2 :: kvs) ++ '\n' :: '\x7d' :: rest))) =
            ':' :: ' ' :: (flatChars kv.2 ++ ',' :: '\n' ::
              (flatMembers (kv2 :: kvs) ++ '\n' :: '\x7d' :: rest)) :=
          skipWs_cons_false ':' _ (by decide)
        simp only [hskipc]
        rw [if_pos (by decide)]
        have hpv := ih.1 kv.2 [' ']
          (',' :: '\n' :: (flatMembers (kv2 :: kvs) ++ '\n' :: '\x7d' :: rest))
          hx (by decide) rfl
        rw [show ([' '] : List Char) ++
          (flatChars kv.2 ++ ',' :: '\n' ::
            (flatMembers (kv2 :: kvs) ++ '\n' :: '\x7d' :: rest)) =
          ' ' :: (flatChars kv.2 ++ ',' :: '\n' ::
            (flatMembers (kv2 :: kvs) ++ '\n' :: '\x7d' :: rest)) from rfl]
          at hpv
        simp only [hpv]
        have hskip3 : skipWs (',' :: '\n' ::
            (flatMembers (kv2 :: kvs) ++ '\n' :: '\x7d' :: rest)) =
            ',' :: '\n' ::
              (flatMembers (kv2 :: kvs) ++ '\n' :: '\x7d' :: rest) :=
          skipWs_cons_false ',' _ (by decide)
        simp only [hskip3]
        rw [if_pos (by decide)]
        have hpm := ih.2.2 (kv2 :: kvs) ['\n'] rest hrest (by simp) (by decide)
        rw [show (['\n'] : List Char) ++
          (flatMembers (kv2 :: kvs) ++ '\n' :: '\x7d' :: rest) =
          '\n' :: (flatMembers (kv2 :: kvs) ++ '\n' :: '\x7d' :: rest)
          from rfl] at hpm
        simp only [hpm]

/-! ## Codec lemmas: every dumped line survives `strip()` unchanged -/

theorem headD_append_left (l r : List Char) (d : Char) (h : l ≠ []) :
    (l ++ r).headD d = l.headD d := by
  match l, h with
  | a :: t, _ => rfl

theorem getLastD_append_right (l r : List (Nat × List Char))
    (d : Nat × List Char) (h : r ≠ []) :
    (l ++ r).getLastD d = r.getLastD d := by
  rw [List.getLastD_eq_getLast?, List.getLastD_eq_getLast?,
    List.getLast?_append_of_ne_nil _ h]

theorem lineOk_comma (l : List Char) (h : lineOk l)
    (h2 : l.headD 'x' = ']' → l.length ≤ 1) : lineOk (l ++ [',']) := by
  obtain ⟨hne, hh, hl, _⟩ := h
  refine ⟨by simp, ?_, ?_, ?_⟩
  · rw [headD_append_left _ _ _ hne]
    exact hh
  · rw [List.getLastD_eq_getLast?, List.getLast?_concat]
    decide
  · intro hbr
    rw [headD_append_left _ _ _ hne] at hbr
    have := h2 hbr
    simp only [List.length_append, List.length_cons, List.length_nil]
    omega

theorem blockOk_tail (p q : Nat × List Char) (r : List (Nat × List Char))
    (h : blockOk (p :: q :: r)) : blockOk (q :: r) := by
  obtain ⟨_, hall, hlast⟩ := h
  refine ⟨by simp, fun x hx => hall x (List.mem_cons_of_mem p hx), ?_⟩
  have heq : ((p :: q :: r).getLastD (0, ['x'])) =
      ((q :: r).getLastD (0, ['x'])) := by
    rw [List.getLastD_eq_getLast?, List.getLastD_eq_getLast?,
      List.getLast?_cons_cons]
  rw [heq] at hlast
  exact hlast

theorem commaLast_linesOk : ∀ b, blockOk b → ∀ p ∈ commaLast b, lineOk p.2
  | [], _, p, hp => by simp [commaLast] at hp
  | [q], hb, p, hp => by
    simp only [commaLast, List.mem_singleton] at hp
    subst hp
    show lineOk (q.2 ++ [','])
    apply lineOk_comma q.2 (hb.2.1 q (by simp))
    intro hbr
    exact hb.2.2 hbr
  | q :: q2 :: r, hb, p, hp => by
    simp only [commaLast, List.mem_cons] at hp
    rcases hp with hp | hp
    · subst hp
      exact hb.2.1 p (by simp)
    · exact commaLast_linesOk (q2 :: r) (blockOk_tail q q2 r hb) p hp

theorem joinB_linesOk : ∀ bs, (∀ b ∈ bs, blockOk b) →
    ∀ p ∈ joinB bs, lineOk p.2
  | [], _, p, hp => by simp [joinB] at hp
  | [b], h, p, hp => by
    rw [show joinB [b] = b from rfl] at hp
    exact (h b (by simp)).2.1 p hp
  | b :: b2 :: bs, h, p, hp => by
    rw [show joinB (b :: b2 :: bs) =
      commaLast b ++ joinB (b2 :: bs) from rfl] at hp
    rcases List.mem_append.mp hp with hp | hp
    · exact commaLast_linesOk b (h b (by simp)) p hp
    · exact joinB_linesOk (b2 :: bs)
        (fun x hx => h x (List.mem_cons_of_mem b hx)) p hp

theorem blockOk_shiftB (b : List (Nat × List Char)) (h : blockOk b) :
    blockOk (shiftB b) := by
  obtain ⟨hne, hall, hlast⟩ := h
  refine ⟨by simp [shiftB, hne], ?_, ?_⟩
  · intro p hp
    obtain ⟨q, hq, hqe⟩ := List.mem_map.mp hp
    rw [← hqe]
    exact hall q hq
  · cases hq : b.getLast? with
    | none => exact absurd (List.getLast?_eq_none_iff.mp hq) hne
    | some q =>
      have h1 : (shiftB b).getLastD (0, ['x']) = (q.1 + 1, q.2) := by
        rw [List.getLastD_eq_getLast?]
        show ((b.map (fun p => (p.1 + 1, p.2))).getLast?).getD _ = _
        rw [List.getLast?_map, hq]
        rfl
      have h2 : b.getLastD (0, ['x']) = q := by
        rw [List.getLastD_eq_getLast?, hq]
        rfl
      rw [h1]
      rw [h2] at hlast
      exact hlast

theorem keyChars_head (k : String) : (keyChars k).headD 'x' = '"' := by
  show ((('"' :: escChars k.data) ++ ('"' :: ':' :: ' ' :: [])).headD 'x') = '"'
  rw [headD_append_left _ _ _ (by simp)]
  rfl

theorem keyChars_ne_nil (k : String) : keyChars k ≠ [] := by
  show ('"' :: escChars k.data) ++ ('"' :: ':' :: ' ' :: []) ≠ []
  simp

theorem blockOk_prefixFirst (k : String) :
    ∀ b, blockOk b → blockOk (prefixFirst (keyChars k) b)
  | [], h => absurd rfl h.1
  | p :: rest, h => by
    have hp2 := h.2.1 p (by simp)
    have hfirst : lineOk (keyChars k ++ p.2) := by
      refine ⟨by simp [keyChars_ne_nil k], ?_, ?_, ?_⟩
      · rw [headD_append_left _ _ _ (keyChars_ne_nil k), keyChars_head]
        decide
      · rw [show ((keyChars k ++ p.2).getLastD 'x') = p.2.getLastD 'x' from by
          rw [List.getLastD_eq_getLast?, List.getLastD_eq_getLast?,
            List.getLast?_append_of_ne_nil _ hp2.1]]
        exact hp2.2.2.1
      · intro hbr
        rw [headD_append_left _ _ _ (keyChars_ne_nil k), keyChars_head] at hbr
        exact absurd hbr (by decide)
    refine ⟨by simp [prefixFirst], ?_, ?_⟩
    · intro q hq
      rw [show prefixFirst (keyChars k) (p :: rest) =
        (p.1, keyChars k ++ p.2) :: rest from rfl] at hq
      rcases List.mem_cons.mp hq with hq | hq
      · rw [hq]
        exact hfirst
      · exact h.2.1 q (List.mem_cons_of_mem p hq)
    · cases rest with
      | nil =>
        intro hbr
        rw [show ((prefixFirst (keyChars k) [p]).getLastD (0, ['x'])) =
          (p.1, keyChars k ++ p.2) from rfl] at hbr ⊢
        rw [headD_append_left _ _ _ (keyChars_ne_nil k), keyChars_head] at hbr
        exact absurd hbr (by decide)
      | cons q r =>
        have heq : ((prefixFirst (keyChars k) (p :: q :: r)).getLastD
            (0, ['x'])) = ((p :: q :: r).getLastD (0, ['x'])) := by
          rw [show prefixFirst (keyChars k) (p :: q :: r) =
            (p.1, keyChars k ++ p.2) :: q :: r from rfl]
          rw [List.getLastD_eq_getLast?, List.getLastD_eq_getLast?,
            List.getLast?_cons_cons, List.getLast?_cons_cons]
        rw [heq]
        exact h.2.2

theorem digitChar_not_strip : ∀ k < 10,
    isStripChar (Char.ofNat (48 + k)) = false ∧
    Char.ofNat (48 + k) ≠ ']' := by decide

theorem intChars_getLast (i : Int) :
    ∃ k, k < 10 ∧ (intChars i).getLastD 'x' = Char.ofNat (48 + k) := by
  unfold intChars
  split_ifs
  · obtain ⟨k, hk, hlast⟩ := natChars_getLast (-i).toNat
    refine ⟨k, hk, ?_⟩
    rw [show ('-' :: natChars (-i).toNat) =
      ['-'] ++ natChars (-i).toNat from rfl]
    rw [List.getLastD_eq_getLast?,
      List.getLast?_append_of_ne_nil _ (natChars_ne_nil _),
      ← List.getLastD_eq_getLast?]
    exact hlast
  · exact natChars_getLast i.toNat

theorem lineOk_intChars (i : Int) : lineOk (intChars i) := by
  obtain ⟨k, hk, hlast⟩ := intChars_getLast i
  refine ⟨intChars_ne_nil i, ?_, ?_, ?_⟩
  · by_cases hneg : i < 0
    · rw [show intChars i = '-' :: natChars (-i).toNat from by
        simp [intChars, hneg]]
      rfl
    · rw [show intChars i = natChars i.toNat from by simp [intChars, hneg]]
      obtain ⟨k2, tl, hk2, heq⟩ := natChars_head i.toNat
      rw [heq]
      show isStripChar (Char.ofNat (48 + k2)) = false
      exact (digitChar_not_strip k2 hk2).1
  · rw [hlast]
    exact (digitChar_not_strip k hk).1
  · intro hbr
    by_cases hneg : i < 0
    · rw [show intChars i = '-' :: natChars (-i).toNat from by
        simp [intChars, hneg]] at hbr
      exact absurd (show ('-' : Char) = ']' from hbr) (by decide)
    · rw [show intChars i = natChars i.toNat from by
        simp [intChars, hneg]] at hbr
      obtain ⟨k2, tl, hk2, heq⟩ := natChars_head i.toNat
      rw [heq] at hbr
      exact absurd (show Char.ofNat (48 + k2) = ']' from hbr)
        (digitChar_not_strip k2 hk2).2

theorem lineOk_strContent (s : String) :
    lineOk ('"' :: escChars s.data ++ ['"']) := by
  refine ⟨by simp, ?_, ?_, ?_⟩
  · rw [headD_append_left _ _ _ (by simp)]
    rfl
  · rw [List.getLastD_eq_getLast?, List.getLast?_concat]
    decide
  · intro hbr
    rw [headD_append_left _ _ _ (by simp)] at hbr
    exact absurd (show ('"' : Char) = ']' from hbr) (by decide)

theorem blocksOk_aux : ∀ n : Nat,
    (∀ v, sizeV v ≤ n → blockOk (linesD v)) ∧
    (∀ L, seqSize L ≤ n → ∀ b ∈ linesArr L, blockOk b) ∧
    (∀ kvs, memSize kvs ≤ n → ∀ b ∈ linesObj kvs, blockOk b) := by
  intro n
  induction n with
  | zero =>
    refine ⟨fun v hv => absurd hv (by have := sizeV_pos v; omega), ?_, ?_⟩
    · exact fun L hL => absurd hL (by have := seqSize_pos L; omega)
    · exact fun kvs hk => absurd hk (by have := memSize_pos kvs; omega)
  | succ n ih =>
    refine ⟨?_, ?_, ?_⟩
    · intro v hv
      cases v with
      | null => decide
      | bool b => cases b <;> decide
      | num i =>
        refine ⟨by simp [linesD], ?_, ?_⟩
        · intro p hp
          rw [show linesD (Json.num i) = [(0, intChars i)] from rfl] at hp
          rw [List.mem_singleton.mp hp]
          exact lineOk_intChars i
        · intro hbr
          have hbr' : (intChars i).headD 'x' = ']' := hbr
          exfalso
          by_cases hneg : i < 0
          · rw [show intChars i = '-' :: natChars (-i).toNat from by
              simp [intChars, hneg]] at hbr'
            exact absurd (show ('-' : Char) = ']' from hbr') (by decide)
          · rw [show intChars i = natChars i.toNat from by
              simp [intChars, hneg]] at hbr'
            obtain ⟨k2, tl, hk2, heq⟩ := natChars_head i.toNat
            rw [heq] at hbr'
            exact absurd (show Char.ofNat (48 + k2) = ']' from hbr')
              (digitChar_not_strip k2 hk2).2
      | str s =>
        refine ⟨by simp [linesD], ?_, ?_⟩
        · intro p hp
          rw [show linesD (Json.str s) =
            [(0, '"' :: escChars s.data ++ ['"'])] from rfl] at hp
          rw [List.mem_singleton.mp hp]
          exact lineOk_strContent s
        · intro hbr
          have hbr' : ('"' :: escChars s.data ++ ['"']).headD 'x' = ']' := hbr
          exfalso
          rw [headD_append_left _ _ _ (by simp)] at hbr'
          exact absurd (show ('"' : Char) = ']' from hbr') (by decide)
      | arr L =>
        cases L with
        | nil => decide
        | cons x xs =>
          have hszq : seqSize (x :: xs) ≤ n := by
            have hv' : 1 + seqSize (x :: xs) ≤ n + 1 := hv
            omega
          have hblocks := ih.2.1 (x :: xs) hszq
          rw [show linesD (Json.arr (x :: xs)) =
            ((0, ['[']) :: joinB (linesArr (x :: xs))) ++ [(0, [']'])]
            from rfl]
          refine ⟨by simp, ?_, ?_⟩
          · intro p hp
            rcases List.mem_append.mp hp with hp | hp
            · rcases List.mem_cons.mp hp with hp | hp
              · rw [hp]; decide
              · exact joinB_linesOk (linesArr (x :: xs)) hblocks p hp
            · rw [List.mem_singleton.mp hp]
              decide
          · rw [getLastD_append_right _ _ _ (by simp)]
            intro _
            decide
      | obj M =>
        cases M with
        | nil => decide
        | cons kv kvs =>
          have hszq : memSize (kv :: kvs) ≤ n := by
            have hv' : 1 + memSize (kv :: kvs) ≤ n + 1 := hv
            omega
          have hblocks := ih.2.2 (kv :: kvs) hszq
          rw [show linesD (Json.obj (kv :: kvs)) =
            ((0, ['\x7b']) :: joinB (linesObj (kv :: kvs))) ++ [(0, ['\x7d'])]
            from rfl]
          refine ⟨by simp, ?_, ?_⟩
          · intro p hp
            rcases List.mem_append.mp hp with hp | hp
            · rcases List.mem_cons.mp hp with hp | hp
              · rw [hp]; decide
              · exact joinB_linesOk (linesObj (kv :: kvs)) hblocks p hp
            · rw [List.mem_singleton.mp hp]
              decide
          · rw [getLastD_append_right _ _ _ (by simp)]
            intro _
            decide
    · intro L hL b hb
      match L, hb with
      | x :: xs, hb =>
        have hL' : 1 + sizeV x + seqSize xs ≤ n + 1 := hL
        rcases List.mem_cons.mp hb with hbe | hbe
        · rw [hbe]
          have hx : sizeV x ≤ n := by
            have := seqSize_pos xs
            omega
          exact blockOk_shiftB _ (ih.1 x hx)
        · have hxs : seqSize xs ≤ n := by
            have := sizeV_pos x
            omega
          exact ih.2.1 xs hxs b hbe
    · intro kvs hk b hb
      match kvs, hb with
      | kv :: kvs, hb =>
        have hk' : 1 + sizeV kv.2 + memSize kvs ≤ n + 1 := hk
        rcases List.mem_cons.mp hb with hbe | hbe
        · rw [hbe]
          have hx : sizeV kv.2 ≤ n := by
            have := memSize_pos kvs
            omega
          exact blockOk_prefixFirst kv.1 _ (blockOk_shiftB _ (ih.1 kv.2 hx))
        · have hxs : memSize kvs ≤ n := by
            have := sizeV_pos kv.2
            omega
          exact ih.2.2 kvs hxs b hbe

theorem linesOk_linesD (v : Json) : ∀ p ∈ linesD v, lineOk p.2 :=
  ((blocksOk_aux (sizeV v)).1 v (le_refl _)).2.1

theorem dropWhile_indent (d : Nat) (c : List Char) :
    List.dropWhile isStripChar (indentChars d ++ c) =
      List.dropWhile isStripChar c := by
  apply List.dropWhile_append_of_pos
  intro a ha
  rw [List.eq_of_mem_replicate ha]
  decide

theorem dropWhile_head_false (c : List Char) (hne : c ≠ [])
    (hh : isStripChar (c.headD 'x') = false) :
    List.dropWhile isStripChar c = c := by
  match c, hne with
  | a :: t, _ =>
    have ha : isStripChar a = false := hh
    simp [List.dropWhile_cons, ha]

theorem stripChars_indent (d : Nat) (c : List Char) (h : lineOk c) :
    stripChars (indentChars d ++ c) = c := by
  obtain ⟨hne, hh, hl, _⟩ := h
  unfold stripChars
  rw [dropWhile_indent, dropWhile_head_false c hne hh]
  have hrne : c.reverse ≠ [] := by simp [hne]
  have hrh : isStripChar (c.reverse.headD 'x') = false := by
    rw [List.headD_eq_head?, List.head?_reverse, ← List.getLastD_eq_getLast?]
    exact hl
  rw [dropWhile_head_false c.reverse hrne hrh, List.reverse_reverse]

theorem lineOk_ne_end (c : List Char) (h : lineOk c) :
    c ≠ endSentinelChars := by
  intro hc
  subst hc
  have h4 := h.2.2.2 (by decide)
  rw [show endSentinelChars.length = 22 from by decide] at h4
  omega

/-! ## `readLoop` on a well-formed message -/

theorem readLoop_collect : ∀ (ls : List (List Char)) (raw : List (List Char)),
    (∀ l ∈ ls, stripChars l ≠ endSentinelChars) →
    readLoop (ls ++ [endSentinelChars]) true raw = raw ++ ls.map stripChars
  | [], raw, _ => by
    show readLoop [endSentinelChars] true raw = raw ++ []
    simp only [readLoop]
    rw [if_pos (by rfl : stripChars endSentinelChars = endSentinelChars)]
    simp
  | l :: ls, raw, h => by
    show readLoop (l :: (ls ++ [endSentinelChars])) true raw = _
    simp only [readLoop]
    rw [if_neg (h l (by simp))]
    rw [readLoop_collect ls (raw ++ [stripChars l])
      (fun x hx => h x (List.mem_cons_of_mem l hx))]
    simp

theorem jsonLoads_flat (v : Json) : jsonLoads (flatChars v) = some v := by
  have hpv := (parse_flat_aux ((flatChars v).length + 1)).1 v [] []
    (by have := sizeV_le_flat v; omega) rfl rfl
  rw [List.nil_append, List.append_nil] at hpv
  simp only [jsonLoads, hpv]
  rfl

/-- **C9.**  Framing round-trip: for every JSON value of the protocol's value
model, writing a message with the framed codec (`writeMessage`: blank line,
begin sentinel, `json.dumps(..., indent=2)` payload lines, end sentinel) and
then reading the produced line stream back with `readMessageRaw` (which strips
each line and joins the accumulated lines before `json.loads`) succeeds and
yields an equal JSON value. -/
theorem writeMessage_readMessage_roundtrip (v : Json) :
    readMessageRaw (writeMessageLines v) = Except.ok v := by
  have hlines : ∀ l ∈ dumpsLines v, stripChars l ≠ endSentinelChars := by
    intro l hl
    simp only [dumpsLines, List.mem_map] at hl
    obtain ⟨p, hp, heq⟩ := hl
    rw [← heq, stripChars_indent p.1 p.2 (linesOk_linesD v p hp)]
    exact lineOk_ne_end p.2 (linesOk_linesD v p hp)
  have hread : readLoop (writeMessageLines v) false [] =
      (dumpsLines v).map stripChars := by
    rw [show writeMessageLines v =
      [] :: (beginSentinelChars :: (dumpsLines v ++ [endSentinelChars]))
      from by simp [writeMessageLines]]
    simp only [readLoop]
    rw [if_neg (by decide), if_neg (by decide : ¬stripChars [] =
      beginSentinelChars)]
    rw [if_neg (by decide),
      if_pos (by rfl : stripChars beginSentinelChars = beginSentinelChars)]
    rw [readLoop_collect (dumpsLines v) [] hlines]
    rfl
  have hmap : (dumpsLines v).map stripChars = (linesD v).map Prod.snd := by
    unfold dumpsLines
    rw [List.map_map]
    apply List.map_congr_left
    intro p hp
    exact stripChars_indent p.1 p.2 (linesOk_linesD v p hp)
  have hmapne : ((linesD v).map Prod.snd).isEmpty = false := by
    rw [List.isEmpty_eq_false_iff_exists_mem]
    obtain ⟨q, hq⟩ := List.exists_mem_of_ne_nil (linesD v) (linesD_ne_nil v)
    exact ⟨q.2, List.mem_map_of_mem Prod.snd hq⟩
  simp only [readMessageRaw, hread, hmap, hmapne]
  rw [if_neg (by simp)]
  rw [show joinLines ((linesD v).map Prod.snd) = flatChars v from rfl]
  simp only [jsonLoads_flat v]

theorem query_returns_first_match_witness :
    ∃ pre m post,
      ([⟨MsgKind.progress, "meson_1"⟩, ⟨MsgKind.signal, "other"⟩,
        ⟨MsgKind.reply, "meson_1"⟩] : List Msg) = pre ++ m :: post ∧
      query "meson_1" [⟨MsgKind.progress, "meson_1"⟩, ⟨MsgKind.signal, "other"⟩,
        ⟨MsgKind.reply, "meson_1"⟩] = some (pre, m) ∧
      isQueryResult "meson_1" m = true ∧
      ∀ x ∈ pre, isQueryResult "meson_1" x = false :=
  query_returns_first_match "meson_1" _
    ⟨⟨MsgKind.reply, "meson_1"⟩, by decide, by decide⟩

end MesonCMake
